import Mathlib

/-!
# Verification of the yav screen abstraction layer

A shallow embedding of the screen / geometry / pixel-format / color core of
the yav image viewer, translated from the C++ sources
(`src/core/screen.cpp`, `src/core/color.cpp`, `format.cpp`,
`viewport.cpp`, `drm.cpp`), together with theorems settling the
specification's claims about it.

Modelling conventions:
* machine integers are `Nat`/`Int` (all values involved stay far below the
  word size, and every place a C++ conversion narrows is modelled with an
  explicit `% 256` or `Int.toNat`);
* `float` quantities (anchor fractions, pixel offsets of a viewport, alpha
  blending factors) are modelled as exact rationals `ℚ`; the C++
  float-to-integer conversions truncate toward zero, modelled by `qtrunc`;
* fallible operations return `Option`/`Except`; in particular a C++
  division whose divisor can be zero (undefined behavior) is modelled as
  returning `none` in exactly that case;
* the hardware surface buffer is a byte-addressed function `Nat → Nat`;
  `memcpy` of an encoded pixel becomes `write_bytes` / `read_bytes`
  (little-endian, matching the x86/ARM targets of the framebuffer code).
-/

namespace Yav

/-- Truncation of a rational toward zero: the C++ `float`-to-`int`
conversion used when a placement expression is stored in a `position`. -/
def qtrunc (q : ℚ) : Int := Int.tdiv q.num q.den

-- region geometry (translated from viewport.cpp / viewport.hpp)

/-- `struct position { int x = 0; int y = 0; }` -/
structure position where
  x : Int := 0
  y : Int := 0
deriving DecidableEq, Repr

/-- `struct constraint { position min; position max; }` -/
structure constraint where
  min : position := {}
  max : position := {}
deriving DecidableEq, Repr

/-- `constraint(x, y, w, h) : min(x, y), max(x + w, y + h)` -/
def constraint.mk' (x y w h : Int) : constraint :=
  ⟨⟨x, y⟩, ⟨x + w, y + h⟩⟩

/-- `int constraint::width() const { return max.x - min.x; }` -/
def constraint.width (c : constraint) : Int := c.max.x - c.min.x

/-- `int constraint::height() const { return max.y - min.y; }` -/
def constraint.height (c : constraint) : Int := c.max.y - c.min.y

/-- `position constraint::offset(other)`: per-axis translation from this
box's origin to the other box's origin. -/
def constraint.offset (c other : constraint) : position :=
  ⟨other.min.x - c.min.x, other.min.y - c.min.y⟩

/-- Membership of an integer point in a constraint box (the pixels a
row/column iteration over the box visits). -/
def constraint.inside (c : constraint) (p : position) : Prop :=
  c.min.x ≤ p.x ∧ p.x < c.max.x ∧ c.min.y ≤ p.y ∧ p.y < c.max.y

/-- `get_constraint_intersection`: seeded from the first box, then
component-wise max of mins and min of maxes over the whole list. -/
def get_constraint_intersection (boxes : List constraint) : constraint :=
  match boxes with
  | [] => {}
  | first :: _ =>
    boxes.foldl
      (fun inter box =>
        ⟨⟨max inter.min.x box.min.x, max inter.min.y box.min.y⟩,
         ⟨min inter.max.x box.max.x, min inter.max.y box.max.y⟩⟩)
      first

/-- The anchored-placement expression of `viewport::get_position`
(one axis):
`ox + float(canvas_extent) * ax - float(self_extent) * ax + canvas_min`,
computed in exact rational arithmetic and truncated toward zero by the
assignment to the `int` field of `position`. -/
def place_axis (off : ℚ) (canvas_extent : Int) (anchor : ℚ) (self_extent : Int)
    (canvas_min : Int) : Int :=
  qtrunc (off + (canvas_extent : ℚ) * anchor - (self_extent : ℚ) * anchor
    + (canvas_min : ℚ))

/-- `struct viewport`: dimensions (−1 = fill container), anchor fractions,
pixel offsets.  The C++ default constructor leaves `w = h = -1`,
anchors and offsets zero. -/
structure viewport where
  w : Int := -1
  h : Int := -1
  ax : ℚ := 0
  ay : ℚ := 0
  ox : ℚ := 0
  oy : ℚ := 0
deriving DecidableEq, Repr

/-- `position viewport::get_position(constraint canvas) const` -/
def viewport.get_position (v : viewport) (canvas : constraint) : position :=
  ⟨place_axis v.ox canvas.width v.ax v.w canvas.min.x,
   place_axis v.oy canvas.height v.ay v.h canvas.min.y⟩

/-- `constraint viewport::get_constraint(constraint canvas) const` -/
def viewport.get_constraint (v : viewport) (canvas : constraint) : constraint :=
  let m := v.get_position canvas
  ⟨m, ⟨m.x + v.w, m.y + v.h⟩⟩

-- region channel / format (translated from format.cpp / format.hpp)

/-- `struct channel { unsigned length = 0, offset = 0, mask = 0; }` -/
structure channel where
  length : Nat := 0
  offset : Nat := 0
  mask : Nat := 0
deriving DecidableEq, Repr

/-- `channel::channel(length, offset) : mask((1 << length) - 1)` -/
def channel.mk' (length offset : Nat) : channel :=
  ⟨length, offset, 2 ^ length - 1⟩

/-- `bool channel::is_used() const { return mask != 0; }` -/
def channel.is_used (c : channel) : Bool := c.mask != 0

/-- `size_t channel::encode(uint8_t value) const`:
`((value * mask) / 255 & mask) << offset`.  The `% 256` models the
`uint8_t` parameter type. -/
def channel.encode (c : channel) (value : Nat) : Nat :=
  ((value % 256) * c.mask / 255 &&& c.mask) <<< c.offset

/-- `uint8_t channel::decode(size_t value) const`:
`field = (value >> offset) & mask; return (field * 255) / mask;`.
The division is by `mask` with no guard: when `mask = 0` the C++
expression divides by zero (undefined behavior), modelled as `none`. -/
def channel.decode (c : channel) (value : Nat) : Option Nat :=
  if c.mask = 0 then none
  else some ((value >>> c.offset &&& c.mask) * 255 / c.mask)

/-- `struct format { unsigned bits; channel r, g, b, a; }` -/
structure format where
  bits : Nat
  r : channel
  g : channel
  b : channel
  a : channel
deriving DecidableEq, Repr

/-- `bool format::pseudocolor() const` -/
def format.pseudocolor (f : format) : Bool :=
  f.r.is_used && f.g.is_used && f.b.is_used

/-- `bool format::color() const` -/
def format.is_color (f : format) : Bool :=
  f.pseudocolor && (f.r.offset != f.g.offset) && (f.g.offset != f.b.offset)
    && (f.r.offset != f.b.offset)

/-- `size_t format::encode_rgb(sr, sg, sb) const` -/
def format.encode_rgb (f : format) (sr sg sb : Nat) : Nat :=
  f.r.encode sr ||| f.g.encode sg ||| f.b.encode sb

/-- `size_t format::encode_alpha(uint8_t alpha) const` -/
def format.encode_alpha (f : format) (alpha : Nat) : Nat :=
  f.a.encode alpha

/-- `size_t format::bytes() const { return bits / 8; }` -/
def format.bytes (f : format) : Nat := f.bits / 8

/-- `void format::decode_rgb(size_t pixel, uint8_t* r, g, b) const`:
the three out-parameters become a returned triple; any undefined
per-channel decode makes the whole call undefined. -/
def format.decode_rgb (f : format) (pixel : Nat) : Option (Nat × Nat × Nat) := do
  let dr ← f.r.decode pixel
  let dg ← f.g.decode pixel
  let db ← f.b.decode pixel
  pure (dr, dg, db)

-- region color (translated from color.cpp / color.hpp)

/-- `struct color { uint8_t r, g, b, a; }`, zero-initialized by `color{}`. -/
structure color where
  r : Nat := 0
  g : Nat := 0
  b : Nat := 0
  a : Nat := 0
deriving DecidableEq, Repr

/-- `color color::from_rgba(const uint8_t* pixel)`: reads four consecutive
bytes of a buffer starting at `idx` (reading memory as `uint8_t` yields a
value below 256, hence the `% 256`). -/
def color.from_rgba (pixel : Nat → Nat) (idx : Nat) : color :=
  ⟨pixel idx % 256, pixel (idx + 1) % 256, pixel (idx + 2) % 256,
   pixel (idx + 3) % 256⟩

/-- Parse errors of `color::parse`; `bad_digit` carries (names) the
offending character, as the thrown `runtime_error` message does. -/
inductive parse_error where
  | bad_digit : Char → parse_error
  | bad_length : parse_error
deriving DecidableEq, Repr

/-- `static uint8_t parse_nibble(const char digit)`: the three range
checks of the C++ function, in order. -/
def parse_nibble (digit : Char) : Except parse_error Nat :=
  if digit ≤ '9' ∧ '0' ≤ digit then .ok (digit.toNat - '0'.toNat)
  else if digit ≤ 'f' ∧ 'a' ≤ digit then .ok (digit.toNat - 'a'.toNat + 10)
  else if digit ≤ 'F' ∧ 'A' ≤ digit then .ok (digit.toNat - 'A'.toNat + 10)
  else .error (.bad_digit digit)

/-- `static uint8_t parse_byte(const char* pair)`:
`(parse_nibble(pair[0]) << 4) | parse_nibble(pair[1])`. -/
def parse_byte (c1 c2 : Char) : Except parse_error Nat := do
  let hi ← parse_nibble c1
  let lo ← parse_nibble c2
  pure (hi <<< 4 ||| lo)

/-- The optional-marker stripping at the top of `color::parse`:
one leading `'#'`, else a leading `"0x"`, else nothing. -/
def strip_head : List Char → List Char
  | '#' :: rest => rest
  | '0' :: 'x' :: rest => rest
  | code => code

/-- The length-checked body of `color::parse`: exactly 8 digits parses
alpha then RGB, exactly 6 parses RGB with alpha left zero-initialized,
anything else throws the length error. -/
def parse_code : List Char → Except parse_error color
  | [a1, a2, r1, r2, g1, g2, b1, b2] => do
    let a ← parse_byte a1 a2
    let r ← parse_byte r1 r2
    let g ← parse_byte g1 g2
    let b ← parse_byte b1 b2
    pure ⟨r, g, b, a⟩
  | [r1, r2, g1, g2, b1, b2] => do
    let r ← parse_byte r1 r2
    let g ← parse_byte g1 g2
    let b ← parse_byte b1 b2
    pure ⟨r, g, b, 0⟩
  | _ => .error .bad_length

/-- `color color::parse(const char* code)`: empty input yields the
zero-initialized `color{}`; otherwise strip the optional marker and
parse the remaining digits. -/
def color.parse (code : List Char) : Except parse_error color :=
  match code with
  | [] => .ok {}
  | code => parse_code (strip_head code)

/-- Hex-digit predicate matching exactly the ranges `parse_nibble`
accepts. -/
def is_hex (c : Char) : Prop :=
  (c ≤ '9' ∧ '0' ≤ c) ∨ (c ≤ 'f' ∧ 'a' ≤ c) ∨ (c ≤ 'F' ∧ 'A' ≤ c)

instance (c : Char) : Decidable (is_hex c) := by
  unfold is_hex; infer_instance

end Yav

namespace Yav

-- region byte buffer primitives (model of memcpy on the mapped surface)

/-- `memcpy(target, &value, n)`: overwrite the `n` bytes at
`[base, base + n)` with the little-endian bytes of `value`; every other
address keeps the old contents. -/
def write_bytes (buf : Nat → Nat) (base n value : Nat) : Nat → Nat :=
  fun a => if base ≤ a ∧ a < base + n then value / 256 ^ (a - base) % 256 else buf a

/-- `size_t pixel = 0; memcpy(&pixel, source, n)`: read `n` bytes
little-endian from `[base, base + n)` into an integer. -/
def read_bytes (buf : Nat → Nat) (base n : Nat) : Nat :=
  (List.range n).foldr (fun i acc => buf (base + i) % 256 + 256 * acc) 0

-- region blending (static blend() at the top of screen.cpp)

/-- One channel of the blend mix
`s.r * foreground + r * background` with `foreground = s.a / 255.0f`,
`background = 1 - foreground`, computed on exact rationals and truncated
by the store into the `uint8_t` field. -/
def mix_channel (s bg a : Nat) : Nat :=
  (qtrunc (((s % 256 : Nat) : ℚ) * (((a % 256 : Nat) : ℚ) / 255)
    + ((bg % 256 : Nat) : ℚ) * (1 - ((a % 256 : Nat) : ℚ) / 255))).toNat

/-- `static void blend(color& s, const void* backbuffer_pixel, const format& fmt,
const size_t bytes)`: decode the current destination RGB from the
back-buffer bytes and mix each color channel of `s` against it; `s.a` is
left unchanged.  Undefined (none) exactly when `decode_rgb` is. -/
def blend (s : color) (buf : Nat → Nat) (base n : Nat) (fmt : format) :
    Option color := do
  let (r, g, b) ← fmt.decode_rgb (read_bytes buf base n)
  pure { s with
    r := mix_channel s.r r s.a
    g := mix_channel s.g g s.a
    b := mix_channel s.b b s.a }

/-- `static size_t get_offset(const position& offset, int x, int y, size_t line,
size_t point)`: `((offset.x + x) + (offset.y + y) * line) * point`. -/
def get_offset (off : position) (x y : Nat) (line : Int) (point : Nat) : Int :=
  ((off.x + x) + (off.y + y) * line) * point

-- region screen state

/-- The state the generic `screen` engine sees: the surface dimensions and
pixel format reported by the backend, the screen's own `viewport view`
member, and the mapped byte buffer (`data()`). -/
structure screen_m where
  w : Nat
  h : Nat
  fmt : format
  view : viewport
  buf : Nat → Nat

/-- The full surface rectangle `constraint scrc{0, 0, screen_width,
screen_height}`. -/
def screen_m.scrc (scr : screen_m) : constraint :=
  constraint.mk' 0 0 scr.w scr.h

/-- `constraint screen::get_viewport(constraint scrc) const`: substitute
the surface extent for any `-1` dimension, then place the viewport inside
the surface box. -/
def screen_m.get_viewport (scr : screen_m) (scrc : constraint) : constraint :=
  let sized := scr.view
  let sized := if sized.w = -1 then { sized with w := scrc.width } else sized
  let sized := if sized.h = -1 then { sized with h := scrc.height } else sized
  sized.get_constraint scrc

-- region image

/-- Modelled from the spec: the decoded image the decoder collaborator
hands to the screen (the current `image.hpp` is not part of the sources;
per the spec, §3, an image *is-a* Viewport, so its anchor fractions and
pixel offsets place it, with `w`/`h` being the decoded frame size).
`data frame` is the frame's RGBA8888 byte buffer. -/
structure image_m where
  w : Int
  h : Int
  ax : ℚ := 0
  ay : ℚ := 0
  ox : ℚ := 0
  oy : ℚ := 0
  frames : Nat := 1
  data : Nat → Nat → Nat
  blend : Bool := false
  loops : Int := 1

/-- `img.get_position(view)`: the inherited `viewport::get_position`
applied with the image's own placement fields and dimensions. -/
def image_m.get_position (img : image_m) (canvas : constraint) : position :=
  ⟨place_axis img.ox canvas.width img.ax img.w canvas.min.x,
   place_axis img.oy canvas.height img.ay img.h canvas.min.y⟩

/-- `int image::frame_count() const { return frames; }` -/
def image_m.frame_count (img : image_m) : Nat := img.frames

-- region screen::blit_frame

/-- The resolved viewport rectangle of a blit/clear call. -/
def blit_view (scr : screen_m) : constraint :=
  scr.get_viewport scr.scrc

/-- The image rectangle `constraint imgc{placed.x, placed.y, img_width,
img_height}`, placed with the viewport rectangle as canvas. -/
def blit_imgc (scr : screen_m) (img : image_m) : constraint :=
  let placed := img.get_position (blit_view scr)
  constraint.mk' placed.x placed.y img.w img.h

/-- `region = get_constraint_intersection({scrc, imgc, view})`. -/
def blit_region (scr : screen_m) (img : image_m) : constraint :=
  get_constraint_intersection [scr.scrc, blit_imgc scr img, blit_view scr]

/-- The body of the inner pixel loop of `screen::blit_frame`: read the
source RGBA, skip fully transparent pixels, optionally blend against the
current destination contents, encode and `memcpy` exactly `bytes` bytes. -/
def blit_pixel (fmt : format) (alphaE bytes : Nat) (blending : Bool)
    (srcdata : Nat → Nat) (so io : position) (sw iw : Int)
    (buf : Nat → Nat) (x y : Nat) : Option (Nat → Nat) :=
  let image_pixel := (get_offset io x y iw 4).toNat
  let s := color.from_rgba srcdata image_pixel
  if s.a = 0 then some buf
  else do
    let screen_pixel := (get_offset so x y sw bytes).toNat
    let s ← if blending then blend s buf screen_pixel bytes fmt else pure s
    pure (write_bytes buf screen_pixel bytes
      (fmt.encode_rgb s.r s.g s.b ||| alphaE))

/-- The row-major iteration order of the two nested loops
(`y` outer over the region height, `x` inner over the region width). -/
def region_points (rw rh : Nat) : List (Nat × Nat) :=
  (List.range rh).flatMap (fun y => (List.range rw).map (fun x => (x, y)))

/-- Run a per-pixel action over the region in loop order, threading the
buffer; any undefined pixel operation makes the whole loop undefined. -/
def iter_region (step : (Nat → Nat) → Nat → Nat → Option (Nat → Nat))
    (buf : Nat → Nat) (rw rh : Nat) : Option (Nat → Nat) :=
  (region_points rw rh).foldlM (fun b p => step b p.1 p.2) buf

/-- `void screen::blit_frame(const image& img, int frame)`: place the
image relative to the resolved viewport, intersect the three rectangles,
and rasterize the region (the trailing `flush()` does not touch the
buffer).  Result `none` models the undefined blend of a format without
usable color channels. -/
def screen_m.blit_frame (scr : screen_m) (img : image_m) (frame : Nat) :
    Option screen_m :=
  let fmt := scr.fmt
  let alphaE := fmt.encode_alpha 0xff
  let bytes := min fmt.bytes 8
  let region := blit_region scr img
  let so := scr.scrc.offset region
  let io := (blit_imgc scr img).offset region
  (iter_region
      (blit_pixel fmt alphaE bytes img.blend (img.data frame) so io
        scr.w img.w)
      scr.buf region.width.toNat region.height.toNat).map
    (fun b => { scr with buf := b })

-- region screen::clear

/-- `region = get_constraint_intersection({scrc, view})` of `screen::clear`. -/
def clear_region (scr : screen_m) : constraint :=
  get_constraint_intersection [scr.scrc, blit_view scr]

/-- The body of the pixel loop of `screen::clear`: start from the fill
color, blend against the current destination contents unless the color is
fully opaque, then encode with forced-opaque alpha and write. -/
def clear_pixel (fmt : format) (alphaE bytes : Nat) (c : color)
    (so : position) (sw : Int) (buf : Nat → Nat) (x y : Nat) :
    Option (Nat → Nat) := do
  let base := (get_offset so x y sw bytes).toNat
  let s ← if c.a ≠ 255 then blend c buf base bytes fmt else pure c
  pure (write_bytes buf base bytes (fmt.encode_rgb s.r s.g s.b ||| alphaE))

/-- `void screen::clear(color c)`: an alpha-0 color returns immediately
with the surface untouched; otherwise fill surface ∩ viewport. -/
def screen_m.clear (scr : screen_m) (c : color) : Option screen_m :=
  let fmt := scr.fmt
  let bytes := min fmt.bytes 8
  let alphaE := fmt.encode_alpha 0xff
  if c.a = 0 then some scr
  else
    let region := clear_region scr
    let so := scr.scrc.offset region
    (iter_region (clear_pixel fmt alphaE bytes c so scr.w)
        scr.buf region.width.toNat region.height.toNat).map
      (fun b => { scr with buf := b })

end Yav

namespace Yav

-- region screen::blit animation driver (screen.cpp lines 117-141)

/-- Observable events of one `screen::blit` call: a completed
`blit_frame(img, frame)` draw, the `was_interrupted()` poll right after
it (recording the flag value the poll observed), and the inter-frame
`usleep`. -/
inductive ev where
  | draw : Nat → ev
  | poll : Bool → ev
  | sleep : ev
deriving DecidableEq, Repr

/-- The inner `for (int frame = 0; frame <= last; frame++)` loop of
`screen::blit`, on the list of remaining frame indices.  `intr k` is the
value of the volatile `is_interrupted` flag observed by the `k`-th poll
(one poll per completed draw, counted globally across passes by `drawn`).
Returns the events of the pass, the updated draw counter, and whether the
pass returned early through the interruption check. -/
def run_pass (intr : Nat → Bool) : List Nat → Nat → List ev × Nat × Bool
  | [], drawn => ([], drawn, false)
  | f :: rest, drawn =>
    if intr drawn then ([ev.draw f, ev.poll true], drawn + 1, true)
    else if rest.isEmpty then ([ev.draw f, ev.poll false], drawn + 1, false)
    else
      let (tail, d, i) := run_pass intr rest (drawn + 1)
      (ev.draw f :: ev.poll false :: ev.sleep :: tail, d, i)

/-- `void screen::blit(const image& img)`: the outer `while (count)` loop,
fuelled by the number of remaining pass iterations the model may still
unfold (`some trace` = the call returns with this event trace; `none` =
the loop was still running when the fuel ran out, as happens forever with
a negative loop count and no interruption).  `frame_count` frames per
pass; `count` decremented only when positive. -/
def screen_blit (intr : Nat → Bool) (frame_count : Nat) :
    Nat → Int → Nat → Option (List ev)
  | 0, count, _ => if count = 0 then some [] else none
  | fuel + 1, count, drawn =>
    if count = 0 then some []
    else
      let (es, d, interrupted) := run_pass intr (List.range frame_count) drawn
      if interrupted then some es
      else
        let count' := if count > 0 then count - 1 else count
        match screen_blit intr frame_count fuel count' d with
        | some rest => some (es ++ rest)
        | none => none

/-- Number of frame draws in a trace. -/
def count_draws (t : List ev) : Nat :=
  t.countP (fun e => match e with | ev.draw _ => true | _ => false)

/-- Number of inter-frame sleeps in a trace. -/
def count_sleeps (t : List ev) : Nat :=
  t.countP (fun e => match e with | ev.sleep => true | _ => false)

/-- The sequence of frame indices drawn, in order. -/
def drawn_frames (t : List ev) : List Nat :=
  t.filterMap (fun e => match e with | ev.draw f => some f | _ => none)

-- region drm_screen (drm.cpp)

/-- The fields of the `drm` backend a `drm_screen` holds (the mode
geometry and dumb-buffer state); `form()` reads none of them. -/
structure drm_state where
  width : Nat := 0
  height : Nat := 0
deriving DecidableEq, Repr

/-- `format drm_screen::form() const { return {32, {8, 16}, {8, 8}, {8, 0},
{8, 24}}; }` — a constant, not derived from the hardware state. -/
def drm_screen_form (_s : drm_state) : format :=
  ⟨32, channel.mk' 8 16, channel.mk' 8 8, channel.mk' 8 0, channel.mk' 8 24⟩

end Yav

namespace Yav

-- region statement helpers

/-- The `i`-th little-endian byte of an encoded value (what
`memcpy(target, &value, bytes)` stores at `target + i`). -/
def byte_at (value i : Nat) : Nat := value / 256 ^ i % 256

/-- Number of cancellation polls in a trace. -/
def count_polls (t : List ev) : Nat :=
  t.countP (fun e => match e with | ev.poll _ => true | _ => false)

/-- Well-formed `screen::blit` traces, as guaranteed by the cancellation
design: every completed frame draw is immediately followed by exactly one
poll of the flag; a poll that observes the flag set is the last event of
the whole call (the call returns immediately: no further draw or sleep);
an inter-frame sleep happens only after a poll that observed the flag
clear, and is immediately followed by the next frame's draw. -/
inductive trace_ok : List ev → Prop where
  | nil : trace_ok []
  | done : ∀ f, trace_ok [ev.draw f, ev.poll true]
  | next : ∀ f t, trace_ok t → trace_ok (ev.draw f :: ev.poll false :: t)
  | next_sleep : ∀ f g t, trace_ok (ev.draw g :: t) →
      trace_ok (ev.draw f :: ev.poll false :: ev.sleep :: ev.draw g :: t)

/-- Decidable coverage test for `blit_frame`: is surface-buffer byte `a`
covered by some region pixel whose source alpha is nonzero?  Recomputes
the same region, offsets and strides as `screen_m.blit_frame`. -/
def blit_touched (scr : screen_m) (img : image_m) (frame a : Nat) : Bool :=
  let bytes := min scr.fmt.bytes 8
  let region := blit_region scr img
  let so := scr.scrc.offset region
  let io := (blit_imgc scr img).offset region
  (List.range region.height.toNat).any fun y =>
    (List.range region.width.toNat).any fun x =>
      decide ((color.from_rgba (img.data frame)
          (get_offset io x y img.w 4).toNat).a ≠ 0)
        && decide ((get_offset so x y scr.w bytes).toNat ≤ a)
        && decide (a < (get_offset so x y scr.w bytes).toNat + bytes)

/-- The encoded value `screen::clear` writes for one pixel whose
destination bytes currently hold `read_bytes buf base bytes`: the fill
color, self-blended unless fully opaque, re-encoded with forced-opaque
alpha. -/
def clear_value (fmt : format) (alphaE bytes : Nat) (c : color)
    (buf : Nat → Nat) (base : Nat) : Nat :=
  let s := if c.a ≠ 255 then (blend c buf base bytes fmt).getD c else c
  fmt.encode_rgb s.r s.g s.b ||| alphaE

-- region concrete instances used by witnesses

/-- A 16-bit 565 format (the format of §8 of the spec). -/
def fmt565 : format :=
  ⟨16, channel.mk' 5 11, channel.mk' 6 5, channel.mk' 5 0, {}⟩

/-- A concrete 2×2 16-bit surface with a default (fill-everything)
viewport. -/
def c3scr : screen_m := ⟨2, 2, fmt565, {}, fun a => a + 1⟩

/-- A concrete opaque 1×1 image, anchored at the surface origin. -/
def c3img : image_m :=
  { w := 1, h := 1, data := fun _ i => if i % 4 = 3 then 255 else 7 }

/-- The surface produced by blitting `c3img` onto `c3scr`. -/
def c3res : screen_m := (c3scr.blit_frame c3img 0).getD c3scr

/-- A concrete 2×1 16-bit surface with a default viewport. -/
def c4scr : screen_m := ⟨2, 1, fmt565, {}, fun a => a + 1⟩

/-- A half-transparent fill color. -/
def c4col : color := ⟨100, 50, 25, 128⟩

/-- The surface produced by clearing `c4scr` with `c4col`. -/
def c4res : screen_m := (c4scr.clear c4col).getD c4scr

/-- A cancellation-flag history that is first observed set by the second
poll. -/
def c8intr : Nat → Bool := fun k => k == 1

/-- The trace of a `blit` call (3 frames, 2 loops) cancelled at the
second poll. -/
def c8trace : List ev := (screen_blit c8intr 3 2 2 0).getD []

/-- The full trace of an uninterrupted `blit` with `loops = 2` and
`frame_count = 3`. -/
def c1trace : List ev :=
  [ev.draw 0, ev.poll false, ev.sleep, ev.draw 1, ev.poll false, ev.sleep,
   ev.draw 2, ev.poll false,
   ev.draw 0, ev.poll false, ev.sleep, ev.draw 1, ev.poll false, ev.sleep,
   ev.draw 2, ev.poll false]

end Yav

namespace Yav

-- region footprint predicates

/-- The footprint of one `blit_frame` iteration: the byte range of its
destination pixel, live only when its source pixel's alpha is nonzero. -/
def blit_cover (bytes : Nat) (srcdata : Nat → Nat) (so io : position)
    (sw iw : Int) (p : Nat × Nat) (a : Nat) : Prop :=
  (color.from_rgba srcdata ((get_offset io p.1 p.2 iw 4).toNat)).a ≠ 0
  ∧ (get_offset so p.1 p.2 sw bytes).toNat ≤ a
  ∧ a < (get_offset so p.1 p.2 sw bytes).toNat + bytes

/-- The footprint of one `clear` iteration: the byte range of its
destination pixel. -/
def clear_cover (bytes : Nat) (so : position) (sw : Int)
    (p : Nat × Nat) (a : Nat) : Prop :=
  (get_offset so p.1 p.2 sw bytes).toNat ≤ a
  ∧ a < (get_offset so p.1 p.2 sw bytes).toNat + bytes

-- region C2: channel::decode on an unused channel

/-- C2 (counterexample): `channel::decode` on a channel with mask 0 (an
unused channel, length 0) does not return 0 — it performs the division
`(field * 255) / mask` with `mask = 0`, a division by zero (undefined
behavior, `none` in the model). -/
theorem decode_mask0_counterexample :
    (channel.mk' 0 0).mask = 0 ∧ (channel.mk' 0 0).length = 0 ∧
      (channel.mk' 0 0).decode 5 ≠ some 0 ∧ (channel.mk' 0 0).decode 5 = none := by
  decide

/-- C2 (amended): `channel::decode` divides by `mask` unconditionally, so
it is undefined (divides by zero) exactly on channels with mask 0; for
every used channel (mask nonzero) the decode is well-defined. -/
theorem decode_div_by_mask (c : channel) (v : Nat) :
    c.decode v = none ↔ c.mask = 0 := by
  unfold channel.decode
  split <;> simp_all

-- region C5: viewport::get_position

/-- `qtrunc` of an integer is that integer. -/
theorem qtrunc_intCast (n : Int) : qtrunc (n : ℚ) = n := by
  unfold qtrunc
  rw [Rat.num_intCast, Rat.den_intCast]
  exact Int.tdiv_one n

/-- C5: for every canvas box and viewport, `viewport::get_position`
returns `canvas.min + (canvas.size − viewport.size) * anchor +
pixel_offset` (componentwise, truncated toward zero by the store into the
integer `position`), with the anchor fractions unclamped; in particular a
10×10 viewport with anchor (1/2, 1/2) and zero offset in a 100×100
canvas is placed at (45, 45). -/
theorem get_position_spec :
    (∀ (v : viewport) (canvas : constraint),
      v.get_position canvas =
        ⟨qtrunc ((canvas.min.x : ℚ) + ((canvas.width : ℚ) - (v.w : ℚ)) * v.ax + v.ox),
         qtrunc ((canvas.min.y : ℚ) + ((canvas.height : ℚ) - (v.h : ℚ)) * v.ay + v.oy)⟩)
    ∧ (viewport.mk 10 10 (1/2) (1/2) 0 0).get_position (constraint.mk' 0 0 100 100)
        = ⟨45, 45⟩ := by
  have main : ∀ (v : viewport) (canvas : constraint),
      v.get_position canvas =
        ⟨qtrunc ((canvas.min.x : ℚ) + ((canvas.width : ℚ) - (v.w : ℚ)) * v.ax + v.ox),
         qtrunc ((canvas.min.y : ℚ) + ((canvas.height : ℚ) - (v.h : ℚ)) * v.ay + v.oy)⟩ := by
    intro v canvas
    unfold viewport.get_position place_axis
    congr 1 <;> ring_nf
  refine ⟨main, ?_⟩
  rw [main]
  have h45 : ∀ q : ℚ, q = ((45 : Int) : ℚ) → qtrunc q = 45 := by
    intro q h
    rw [h, qtrunc_intCast]
  congr 1 <;>
  · apply h45
    norm_num [constraint.mk', constraint.width, constraint.height]

-- region C6: the bit-field codec test values

/-- C6: the documented codec values hold: for a channel of length 6 at
offset 3, `is_used()` is true, the three decodes and three encodes give
the listed values, and for the 16-bit 565 format the listed
`encode_rgb` / `decode_rgb` values hold. -/
theorem codec_values :
    (channel.mk' 6 3).is_used = true
    ∧ (channel.mk' 6 3).decode 0b111111101 = some 255
    ∧ (channel.mk' 6 3).decode 0b011111101 = some 125
    ∧ (channel.mk' 6 3).decode 0b111000000111 = some 0
    ∧ (channel.mk' 6 3).encode 255 = 0b111111000
    ∧ (channel.mk' 6 3).encode 125 = 0b011110000
    ∧ (channel.mk' 6 3).encode 0 = 0
    ∧ fmt565 = ⟨16, channel.mk' 5 11, channel.mk' 6 5, channel.mk' 5 0, {}⟩
    ∧ fmt565.encode_rgb 255 125 0 = 0b1111101111000000
    ∧ fmt565.decode_rgb 0b1111101111100000 = some (255, 125, 0) := by
  decide

-- region C9: drm_screen::form

/-- C9: `drm_screen::form()` returns, for every instance and
independently of any hardware state, the fixed 32-bits-per-pixel format
with 8-bit channels: blue at offset 0, green at 8, red at 16, alpha at
24. -/
theorem drm_form_fixed :
    ∀ s s' : drm_state,
      drm_screen_form s = drm_screen_form s'
      ∧ (drm_screen_form s).bits = 32
      ∧ (drm_screen_form s).b = channel.mk' 8 0
      ∧ (drm_screen_form s).g = channel.mk' 8 8
      ∧ (drm_screen_form s).r = channel.mk' 8 16
      ∧ (drm_screen_form s).a = channel.mk' 8 24
      ∧ (drm_screen_form s).b.length = 8 ∧ (drm_screen_form s).g.length = 8
      ∧ (drm_screen_form s).r.length = 8 ∧ (drm_screen_form s).a.length = 8 := by
  intro s s'
  exact ⟨rfl, rfl, rfl, rfl, rfl, rfl, rfl, rfl, rfl, rfl⟩

end Yav

namespace Yav

-- region C7: color::parse

/-- A hex digit is accepted by `parse_nibble`. -/
theorem parse_nibble_ok {c : Char} (h : is_hex c) : ∃ n, parse_nibble c = .ok n := by
  unfold parse_nibble
  split
  · exact ⟨_, rfl⟩
  split
  · exact ⟨_, rfl⟩
  split
  · exact ⟨_, rfl⟩
  · unfold is_hex at h
    tauto

/-- A non-hex character makes `parse_nibble` throw the error naming it. -/
theorem parse_nibble_bad {c : Char} (h : ¬ is_hex c) :
    parse_nibble c = .error (.bad_digit c) := by
  unfold parse_nibble
  unfold is_hex at h
  split
  · tauto
  split
  · tauto
  split
  · tauto
  · rfl

/-- `parse_byte` succeeds on two hex digits and otherwise throws an error
naming one of its two (non-hex) characters. -/
theorem parse_byte_cases (c1 c2 : Char) :
    (is_hex c1 ∧ is_hex c2 ∧ ∃ n, parse_byte c1 c2 = .ok n)
    ∨ (∃ ch, ¬ is_hex ch ∧ (ch = c1 ∨ ch = c2)
        ∧ parse_byte c1 c2 = .error (.bad_digit ch)) := by
  by_cases h1 : is_hex c1
  · by_cases h2 : is_hex c2
    · obtain ⟨n1, e1⟩ := parse_nibble_ok h1
      obtain ⟨n2, e2⟩ := parse_nibble_ok h2
      refine Or.inl ⟨h1, h2, n1 <<< 4 ||| n2, ?_⟩
      unfold parse_byte
      rw [e1, e2]
      rfl
    · refine Or.inr ⟨c2, h2, Or.inr rfl, ?_⟩
      obtain ⟨n1, e1⟩ := parse_nibble_ok h1
      unfold parse_byte
      rw [e1, parse_nibble_bad h2]
      rfl
  · refine Or.inr ⟨c1, h1, Or.inl rfl, ?_⟩
    unfold parse_byte
    rw [parse_nibble_bad h1]
    rfl

/-- Every character list is an 8-tuple, a 6-tuple, or of neither length. -/
theorem list_shape (l : List Char) :
    (∃ a b c d e f g h, l = [a, b, c, d, e, f, g, h])
    ∨ (∃ a b c d e f, l = [a, b, c, d, e, f])
    ∨ (l.length ≠ 6 ∧ l.length ≠ 8) := by
  rcases l with _ | ⟨a, _ | ⟨b, _ | ⟨c, _ | ⟨d, _ | ⟨e, _ | ⟨f, _ | ⟨g, _ | ⟨h, _ | ⟨i, t⟩⟩⟩⟩⟩⟩⟩⟩⟩
  · right; right; simp
  · right; right; simp
  · right; right; simp
  · right; right; simp
  · right; right; simp
  · right; right; simp
  · right; left; exact ⟨a, b, c, d, e, f, rfl⟩
  · right; right; simp
  · left; exact ⟨a, b, c, d, e, f, g, h, rfl⟩
  · right; right
    simp [Nat.succ_ne_zero]

/-- `parse_code` on exactly 8 characters: alpha first, then RGB. -/
theorem parse_code_eq8 (a1 a2 r1 r2 g1 g2 b1 b2 : Char) :
    parse_code [a1, a2, r1, r2, g1, g2, b1, b2] = (do
      let a ← parse_byte a1 a2
      let r ← parse_byte r1 r2
      let g ← parse_byte g1 g2
      let b ← parse_byte b1 b2
      pure ⟨r, g, b, a⟩) := rfl

/-- `parse_code` on exactly 6 characters: RGB with alpha left zero. -/
theorem parse_code_eq6 (r1 r2 g1 g2 b1 b2 : Char) :
    parse_code [r1, r2, g1, g2, b1, b2] = (do
      let r ← parse_byte r1 r2
      let g ← parse_byte g1 g2
      let b ← parse_byte b1 b2
      pure ⟨r, g, b, 0⟩) := rfl

/-- Any other length is rejected with the length error. -/
theorem parse_code_bad_length {l : List Char} (h6 : l.length ≠ 6)
    (h8 : l.length ≠ 8) : parse_code l = .error .bad_length := by
  unfold parse_code
  split
  · simp_all
  · simp_all
  · rfl

end Yav

namespace Yav

/-- `parse_code` succeeds exactly on 6 or 8 hex digits. -/
theorem parse_code_ok_iff (l : List Char) :
    (∃ c, parse_code l = .ok c)
      ↔ ((l.length = 6 ∨ l.length = 8) ∧ ∀ ch ∈ l, is_hex ch) := by
  rcases list_shape l with ⟨a1, a2, r1, r2, g1, g2, b1, b2, rfl⟩
    | ⟨r1, r2, g1, g2, b1, b2, rfl⟩ | ⟨h6, h8⟩
  · constructor
    · rintro ⟨c, hc⟩
      rw [parse_code_eq8] at hc
      rcases parse_byte_cases a1 a2 with ⟨ha1, ha2, n, hn⟩
        | ⟨ch, hch, hor, herr⟩
      swap
      · rw [herr] at hc
        exact absurd hc (fun hh => Except.noConfusion hh)
      rw [hn] at hc
      rcases parse_byte_cases r1 r2 with ⟨hr1, hr2, n2, hn2⟩
        | ⟨ch, hch, hor, herr⟩
      swap
      · rw [herr] at hc
        exact absurd hc (fun hh => Except.noConfusion hh)
      rw [hn2] at hc
      rcases parse_byte_cases g1 g2 with ⟨hg1, hg2, n3, hn3⟩
        | ⟨ch, hch, hor, herr⟩
      swap
      · rw [herr] at hc
        exact absurd hc (fun hh => Except.noConfusion hh)
      rw [hn3] at hc
      rcases parse_byte_cases b1 b2 with ⟨hb1, hb2, n4, hn4⟩
        | ⟨ch, hch, hor, herr⟩
      swap
      · rw [herr] at hc
        exact absurd hc (fun hh => Except.noConfusion hh)
      refine ⟨Or.inr rfl, ?_⟩
      intro ch hch
      simp only [List.mem_cons, List.not_mem_nil, or_false] at hch
      rcases hch with rfl | rfl | rfl | rfl | rfl | rfl | rfl | rfl <;>
        assumption
    · rintro ⟨-, hhex⟩
      have h8 := fun (c : Char) (h : c ∈ ([a1, a2, r1, r2, g1, g2, b1, b2] : List Char)) => hhex c h
      rw [parse_code_eq8]
      rcases parse_byte_cases a1 a2 with ⟨-, -, n1, hn1⟩ | ⟨ch, hch, hor, -⟩
      swap
      · rcases hor with rfl | rfl <;> exact absurd (h8 _ (by simp)) hch
      rcases parse_byte_cases r1 r2 with ⟨-, -, n2, hn2⟩ | ⟨ch, hch, hor, -⟩
      swap
      · rcases hor with rfl | rfl <;> exact absurd (h8 _ (by simp)) hch
      rcases parse_byte_cases g1 g2 with ⟨-, -, n3, hn3⟩ | ⟨ch, hch, hor, -⟩
      swap
      · rcases hor with rfl | rfl <;> exact absurd (h8 _ (by simp)) hch
      rcases parse_byte_cases b1 b2 with ⟨-, -, n4, hn4⟩ | ⟨ch, hch, hor, -⟩
      swap
      · rcases hor with rfl | rfl <;> exact absurd (h8 _ (by simp)) hch
      rw [hn1, hn2, hn3, hn4]
      exact ⟨_, rfl⟩
  · constructor
    · rintro ⟨c, hc⟩
      rw [parse_code_eq6] at hc
      rcases parse_byte_cases r1 r2 with ⟨hr1, hr2, n2, hn2⟩
        | ⟨ch, hch, hor, herr⟩
      swap
      · rw [herr] at hc
        exact absurd hc (fun hh => Except.noConfusion hh)
      rw [hn2] at hc
      rcases parse_byte_cases g1 g2 with ⟨hg1, hg2, n3, hn3⟩
        | ⟨ch, hch, hor, herr⟩
      swap
      · rw [herr] at hc
        exact absurd hc (fun hh => Except.noConfusion hh)
      rw [hn3] at hc
      rcases parse_byte_cases b1 b2 with ⟨hb1, hb2, n4, hn4⟩
        | ⟨ch, hch, hor, herr⟩
      swap
      · rw [herr] at hc
        exact absurd hc (fun hh => Except.noConfusion hh)
      refine ⟨Or.inl rfl, ?_⟩
      intro ch hch
      simp only [List.mem_cons, List.not_mem_nil, or_false] at hch
      rcases hch with rfl | rfl | rfl | rfl | rfl | rfl <;> assumption
    · rintro ⟨-, hhex⟩
      have h6 := fun (c : Char) (h : c ∈ ([r1, r2, g1, g2, b1, b2] : List Char)) => hhex c h
      rw [parse_code_eq6]
      rcases parse_byte_cases r1 r2 with ⟨-, -, n2, hn2⟩ | ⟨ch, hch, hor, -⟩
      swap
      · rcases hor with rfl | rfl <;> exact absurd (h6 _ (by simp)) hch
      rcases parse_byte_cases g1 g2 with ⟨-, -, n3, hn3⟩ | ⟨ch, hch, hor, -⟩
      swap
      · rcases hor with rfl | rfl <;> exact absurd (h6 _ (by simp)) hch
      rcases parse_byte_cases b1 b2 with ⟨-, -, n4, hn4⟩ | ⟨ch, hch, hor, -⟩
      swap
      · rcases hor with rfl | rfl <;> exact absurd (h6 _ (by simp)) hch
      rw [hn2, hn3, hn4]
      exact ⟨_, rfl⟩
  · rw [parse_code_bad_length h6 h8]
    simp [h6, h8]

end Yav

namespace Yav

/-- Every `parse_code` failure is either the length error (at a length
other than 6 or 8) or an error naming a non-hex character of the input. -/
theorem parse_code_err (l : List Char) (e : parse_error)
    (h : parse_code l = .error e) :
    (e = .bad_length ∧ l.length ≠ 6 ∧ l.length ≠ 8)
    ∨ ∃ ch, e = .bad_digit ch ∧ ¬ is_hex ch ∧ ch ∈ l := by
  rcases list_shape l with ⟨a1, a2, r1, r2, g1, g2, b1, b2, rfl⟩
    | ⟨r1, r2, g1, g2, b1, b2, rfl⟩ | ⟨h6, h8⟩
  · rw [parse_code_eq8] at h
    rcases parse_byte_cases a1 a2 with ⟨-, -, n1, hn1⟩ | ⟨ch, hch, hor, herr⟩
    swap
    · rw [herr] at h
      have h' : (Except.error (parse_error.bad_digit ch) : Except parse_error color)
          = Except.error e := h
      refine Or.inr ⟨ch, (Except.error.inj h').symm, hch, ?_⟩
      rcases hor with rfl | rfl <;> simp
    rw [hn1] at h
    rcases parse_byte_cases r1 r2 with ⟨-, -, n2, hn2⟩ | ⟨ch, hch, hor, herr⟩
    swap
    · rw [herr] at h
      have h' : (Except.error (parse_error.bad_digit ch) : Except parse_error color)
          = Except.error e := h
      refine Or.inr ⟨ch, (Except.error.inj h').symm, hch, ?_⟩
      rcases hor with rfl | rfl <;> simp
    rw [hn2] at h
    rcases parse_byte_cases g1 g2 with ⟨-, -, n3, hn3⟩ | ⟨ch, hch, hor, herr⟩
    swap
    · rw [herr] at h
      have h' : (Except.error (parse_error.bad_digit ch) : Except parse_error color)
          = Except.error e := h
      refine Or.inr ⟨ch, (Except.error.inj h').symm, hch, ?_⟩
      rcases hor with rfl | rfl <;> simp
    rw [hn3] at h
    rcases parse_byte_cases b1 b2 with ⟨-, -, n4, hn4⟩ | ⟨ch, hch, hor, herr⟩
    swap
    · rw [herr] at h
      have h' : (Except.error (parse_error.bad_digit ch) : Except parse_error color)
          = Except.error e := h
      refine Or.inr ⟨ch, (Except.error.inj h').symm, hch, ?_⟩
      rcases hor with rfl | rfl <;> simp
    rw [hn4] at h
    exact absurd h (fun hh => Except.noConfusion hh)
  · rw [parse_code_eq6] at h
    rcases parse_byte_cases r1 r2 with ⟨-, -, n2, hn2⟩ | ⟨ch, hch, hor, herr⟩
    swap
    · rw [herr] at h
      have h' : (Except.error (parse_error.bad_digit ch) : Except parse_error color)
          = Except.error e := h
      refine Or.inr ⟨ch, (Except.error.inj h').symm, hch, ?_⟩
      rcases hor with rfl | rfl <;> simp
    rw [hn2] at h
    rcases parse_byte_cases g1 g2 with ⟨-, -, n3, hn3⟩ | ⟨ch, hch, hor, herr⟩
    swap
    · rw [herr] at h
      have h' : (Except.error (parse_error.bad_digit ch) : Except parse_error color)
          = Except.error e := h
      refine Or.inr ⟨ch, (Except.error.inj h').symm, hch, ?_⟩
      rcases hor with rfl | rfl <;> simp
    rw [hn3] at h
    rcases parse_byte_cases b1 b2 with ⟨-, -, n4, hn4⟩ | ⟨ch, hch, hor, herr⟩
    swap
    · rw [herr] at h
      have h' : (Except.error (parse_error.bad_digit ch) : Except parse_error color)
          = Except.error e := h
      refine Or.inr ⟨ch, (Except.error.inj h').symm, hch, ?_⟩
      rcases hor with rfl | rfl <;> simp
    rw [hn4] at h
    exact absurd h (fun hh => Except.noConfusion hh)
  · rw [parse_code_bad_length h6 h8] at h
    exact Or.inl ⟨(Except.error.inj h).symm, h6, h8⟩

/-- C7: `color::parse` strips an optional `#` or `0x` marker, accepts
exactly 6 hex digits (RGB, alpha left 0) or exactly 8 (alpha then RGB),
and fails on any other length or on a non-hex character, in the latter
case with an error naming the offending character; the empty string
yields the zero color; `"ffffff"`, `"#ffffff"` and `"0xffffff"` all parse
to the same RGB triple and `"zz0000"` fails naming `'z'`. -/
theorem color_parse_spec :
    color.parse [] = .ok ⟨0, 0, 0, 0⟩
    ∧ color.parse "ffffff".toList = .ok ⟨255, 255, 255, 0⟩
    ∧ color.parse "#ffffff".toList = .ok ⟨255, 255, 255, 0⟩
    ∧ color.parse "0xffffff".toList = .ok ⟨255, 255, 255, 0⟩
    ∧ color.parse "zz0000".toList = .error (.bad_digit 'z')
    ∧ (∀ code : List Char,
        (∃ c, color.parse code = .ok c) ↔
          (code = [] ∨ (((strip_head code).length = 6 ∨ (strip_head code).length = 8)
            ∧ ∀ ch ∈ strip_head code, is_hex ch)))
    ∧ (∀ code e, color.parse code = .error e →
        (e = .bad_length ∧ (strip_head code).length ≠ 6 ∧ (strip_head code).length ≠ 8)
        ∨ ∃ ch, e = .bad_digit ch ∧ ¬ is_hex ch ∧ ch ∈ strip_head code) := by
  refine ⟨rfl, rfl, rfl, rfl, rfl, ?_, ?_⟩
  · intro code
    cases code with
    | nil => exact ⟨fun _ => Or.inl rfl, fun _ => ⟨{}, rfl⟩⟩
    | cons c rest =>
      have he : color.parse (c :: rest) = parse_code (strip_head (c :: rest)) := rfl
      rw [he, parse_code_ok_iff]
      simp
  · intro code e h
    cases code with
    | nil => exact absurd h (fun hh => Except.noConfusion hh)
    | cons c rest => exact parse_code_err _ _ h

end Yav

namespace Yav

-- region C1 / C8: the animation driver

/-- Unfolding of `run_pass` on an empty frame list. -/
theorem run_pass_nil (intr : Nat → Bool) (drawn : Nat) :
    run_pass intr [] drawn = ([], drawn, false) := rfl

/-- Unfolding of `run_pass` on a nonempty frame list. -/
theorem run_pass_cons (intr : Nat → Bool) (f : Nat) (rest : List Nat) (drawn : Nat) :
    run_pass intr (f :: rest) drawn =
      if intr drawn then ([ev.draw f, ev.poll true], drawn + 1, true)
      else if rest.isEmpty then ([ev.draw f, ev.poll false], drawn + 1, false)
      else (ev.draw f :: ev.poll false :: ev.sleep :: (run_pass intr rest (drawn + 1)).1,
        (run_pass intr rest (drawn + 1)).2.1, (run_pass intr rest (drawn + 1)).2.2) := rfl

/-- Unfolding of `screen_blit` with no fuel. -/
theorem screen_blit_zero (intr : Nat → Bool) (fc : Nat) (count : Int) (drawn : Nat) :
    screen_blit intr fc 0 count drawn = if count = 0 then some [] else none := rfl

/-- Unfolding of one `while (count)` iteration of `screen_blit`. -/
theorem screen_blit_succ (intr : Nat → Bool) (fc fuel : Nat) (count : Int) (drawn : Nat) :
    screen_blit intr fc (fuel + 1) count drawn =
      if count = 0 then some []
      else if (run_pass intr (List.range fc) drawn).2.2 then
        some (run_pass intr (List.range fc) drawn).1
      else
        match screen_blit intr fc fuel (if count > 0 then count - 1 else count)
            (run_pass intr (List.range fc) drawn).2.1 with
        | some rest => some ((run_pass intr (List.range fc) drawn).1 ++ rest)
        | none => none := rfl

/-- A pass over a nonempty frame list starts by drawing its first frame. -/
theorem run_pass_head_cons (intr : Nat → Bool) (g : Nat) (rest : List Nat)
    (drawn : Nat) : ∃ t', (run_pass intr (g :: rest) drawn).1 = ev.draw g :: t' := by
  rw [run_pass_cons]
  split
  · exact ⟨_, rfl⟩
  split
  · exact ⟨_, rfl⟩
  · exact ⟨_, rfl⟩

/-- Pass traces are well formed: an interrupted pass is a complete trace
on its own, and an uninterrupted pass can be extended by any well-formed
continuation. -/
theorem run_pass_ok (intr : Nat → Bool) : ∀ (fs : List Nat) (drawn : Nat),
    ((run_pass intr fs drawn).2.2 = true → trace_ok (run_pass intr fs drawn).1)
    ∧ ((run_pass intr fs drawn).2.2 = false → ∀ t, trace_ok t →
        trace_ok ((run_pass intr fs drawn).1 ++ t)) := by
  intro fs
  induction fs with
  | nil =>
    intro drawn
    rw [run_pass_nil]
    exact ⟨(fun h => nomatch h), (fun _ t ht => ht)⟩
  | cons f rest ih =>
    intro drawn
    rw [run_pass_cons]
    by_cases hi : intr drawn
    · simp only [hi, if_true]
      exact ⟨fun _ => trace_ok.done f, fun h => nomatch h⟩
    · simp only [hi, if_false, Bool.false_eq_true]
      cases he : rest.isEmpty
      · simp only [Bool.false_eq_true, if_false]
        obtain ⟨g, rest₂, rfl⟩ : ∃ g rest₂, rest = g :: rest₂ := by
          cases rest with
          | nil => simp at he
          | cons g rest₂ => exact ⟨g, rest₂, rfl⟩
        obtain ⟨t', ht'⟩ := run_pass_head_cons intr g rest₂ (drawn + 1)
        constructor
        · intro hint
          have h1 := (ih (drawn + 1)).1 hint
          rw [ht'] at h1 ⊢
          exact trace_ok.next_sleep f g t' h1
        · intro hint t ht
          have h1 := (ih (drawn + 1)).2 hint t ht
          rw [ht'] at h1 ⊢
          exact trace_ok.next_sleep f g (t' ++ t) h1
      · simp only [if_true]
        refine ⟨(fun h => nomatch h), (fun _ t ht => ?_)⟩
        exact trace_ok.next f t ht
/-- Every trace `screen_blit` can return is well formed. -/
theorem screen_blit_ok (intr : Nat → Bool) (fc : Nat) :
    ∀ (fuel : Nat) (count : Int) (drawn : Nat) (t : List ev),
      screen_blit intr fc fuel count drawn = some t → trace_ok t := by
  intro fuel
  induction fuel with
  | zero =>
    intro count drawn t h
    rw [screen_blit_zero] at h
    split at h
    · cases h
      exact trace_ok.nil
    · exact absurd h (fun hh => Option.noConfusion hh)
  | succ fuel ih =>
    intro count drawn t h
    rw [screen_blit_succ] at h
    split at h
    · cases h
      exact trace_ok.nil
    split at h
    · cases h
      exact (run_pass_ok intr (List.range fc) drawn).1 (by assumption)
    · split at h
      · cases h
        refine (run_pass_ok intr (List.range fc) drawn).2 ?_ _ (ih _ _ _ (by assumption))
        simp_all
      · exact absurd h (fun hh => Option.noConfusion hh)

/-- In a well-formed trace, a poll that observed the flag set is the very
last event. -/
theorem trace_ok_poll_true_last {t : List ev} (h : trace_ok t) :
    ∀ k, t.get? k = some (ev.poll true) → k + 1 = t.length := by
  induction h with
  | nil =>
    intro k hk
    simp at hk
  | done f =>
    intro k hk
    rcases k with _ | _ | k <;> simp_all
  | next f t ht ih =>
    intro k hk
    rcases k with _ | _ | k
    · simp at hk
    · simp at hk
    · have := ih k (by simpa using hk)
      simp [List.length_cons]
      omega
  | next_sleep f g t ht ih =>
    intro k hk
    rcases k with _ | _ | _ | k
    · simp at hk
    · simp at hk
    · simp at hk
    · have := ih k (by simpa using hk)
      simp [List.length_cons] at this ⊢
      omega

/-- In a well-formed trace every draw has exactly one poll: the counts
agree. -/
theorem trace_ok_polls_eq_draws {t : List ev} (h : trace_ok t) :
    count_polls t = count_draws t := by
  induction h with
  | nil => rfl
  | done f => rfl
  | next f t ht ih =>
    simp only [count_polls, count_draws, List.countP_cons] at ih ⊢
    simp [ih]
  | next_sleep f g t ht ih =>
    simp only [count_polls, count_draws, List.countP_cons] at ih ⊢
    simp at ih ⊢
    omega

/-- C8: in `screen::blit` the cancellation flag is polled exactly once
after each completed frame draw (polls and draws are in bijection, each
draw immediately followed by its poll per `trace_ok`), a draw is never
interrupted partway (draws are atomic events of the trace), and once a
poll observes the flag set the call returns immediately: the set-poll is
the last event, so no further draw or sleep follows it. -/
theorem blit_cancellation (intr : Nat → Bool) (fc fuel : Nat) (count : Int)
    (drawn : Nat) (t : List ev)
    (h : screen_blit intr fc fuel count drawn = some t) :
    trace_ok t ∧ count_polls t = count_draws t
      ∧ ∀ k, t.get? k = some (ev.poll true) → k + 1 = t.length := by
  have ht := screen_blit_ok intr fc fuel count drawn t h
  exact ⟨ht, trace_ok_polls_eq_draws ht, trace_ok_poll_true_last ht⟩

/-- C8 witness: a concrete cancelled run (flag first observed set by the
second poll) yields a well-formed trace with matched polls and draws. -/
theorem blit_cancellation_witness :
    trace_ok c8trace ∧ count_polls c8trace = count_draws c8trace :=
  ⟨(blit_cancellation c8intr 3 2 2 0 c8trace rfl).1,
   (blit_cancellation c8intr 3 2 2 0 c8trace rfl).2.1⟩

end Yav

namespace Yav

/-- With the flag never set no pass is ever interrupted. -/
theorem run_pass_const_false : ∀ (fs : List Nat) (drawn : Nat),
    (run_pass (fun _ => false) fs drawn).2.2 = false := by
  intro fs
  induction fs with
  | nil =>
    intro drawn
    rfl
  | cons f rest ih =>
    intro drawn
    rw [run_pass_cons]
    cases he : rest.isEmpty <;> simp [he, ih]

/-- C1 (counterexample): an uninterrupted `blit` with `loops = 2` and
`frame_count = 3` performs 6 frame draws but only 4 inter-frame sleeps,
not the 5 the specification states (the driver also skips the sleep after
the last frame of the *first* pass, i.e. after draw 3, not only after
draw 6). -/
theorem blit_sleeps_counterexample :
    (screen_blit (fun _ => false) 3 2 2 0).map count_draws = some 6
    ∧ (screen_blit (fun _ => false) 3 2 2 0).map count_sleeps = some 4
    ∧ ¬ (screen_blit (fun _ => false) 3 2 2 0).map count_sleeps = some 5 := by
  decide

/-- C1 (amended): an uninterrupted `blit` with `loops = 2` and
`frame_count = 3` terminates with exactly the trace that draws frames
0, 1, 2 in order twice (6 draws), sleeping exactly 4 times — between
consecutive frames within a pass only, so not after draw 3 (events 8 and
9 are the second pass's first draw with no sleep between passes) and not
after draw 6 (the trace ends at its 16th event, the final poll); a loop
count of 0 performs no passes at all, and a negative loop count with the
flag never set loops forever (no amount of fuel makes the model
terminate). -/
theorem blit_loops_spec :
    screen_blit (fun _ => false) 3 2 2 0 = some c1trace
    ∧ count_draws c1trace = 6
    ∧ count_sleeps c1trace = 4
    ∧ drawn_frames c1trace = [0, 1, 2, 0, 1, 2]
    ∧ c1trace.get? 6 = some (ev.draw 2) ∧ c1trace.get? 7 = some (ev.poll false)
    ∧ c1trace.get? 8 = some (ev.draw 0)
    ∧ c1trace.get? 14 = some (ev.draw 2) ∧ c1trace.get? 15 = some (ev.poll false)
    ∧ c1trace.length = 16
    ∧ (∀ (intr : Nat → Bool) (fc fuel drawn : Nat),
        screen_blit intr fc fuel 0 drawn = some [])
    ∧ (∀ (fc fuel drawn n : Nat),
        screen_blit (fun _ => false) fc fuel (Int.negSucc n) drawn = none) := by
  refine ⟨by decide, by decide, by decide, by decide, by decide, by decide,
    by decide, by decide, by decide, by decide, ?_, ?_⟩
  · intro intr fc fuel drawn
    cases fuel with
    | zero => rw [screen_blit_zero]; rfl
    | succ fuel => rw [screen_blit_succ]; rfl
  · intro fc fuel drawn n
    induction fuel generalizing drawn with
    | zero =>
      rw [screen_blit_zero,
        if_neg (by have := Int.negSucc_lt_zero n; omega)]
    | succ fuel ih =>
      rw [screen_blit_succ,
        if_neg (by have := Int.negSucc_lt_zero n; omega),
        if_neg (by rw [run_pass_const_false]; exact fun h => nomatch h)]
      rw [if_neg (by have := Int.negSucc_lt_zero n; omega)]
      rw [ih]

end Yav

namespace Yav

-- region generic lemmas about the per-pixel region fold

/-- If every step of the fold writes only inside its own footprint `F`,
bytes outside every footprint keep their original value. -/
theorem foldlM_frame {α : Type} (step : (Nat → Nat) → α → Option (Nat → Nat))
    (F : α → Nat → Prop)
    (hframe : ∀ p b b', step b p = some b' → ∀ a, ¬ F p a → b' a = b a) :
    ∀ (L : List α) (buf res : Nat → Nat),
      L.foldlM step buf = some res →
      ∀ a, (∀ p ∈ L, ¬ F p a) → res a = buf a := by
  intro L
  induction L with
  | nil =>
    intro buf res h a _
    rw [List.foldlM_nil] at h
    cases h
    rfl
  | cons p L ih =>
    intro buf res h a hout
    rw [List.foldlM_cons] at h
    cases hb : step buf p with
    | none =>
      rw [hb] at h
      exact absurd h (fun hh => Option.noConfusion hh)
    | some b₁ =>
      rw [hb] at h
      have h' : L.foldlM step b₁ = some res := h
      rw [ih b₁ res h' a (fun q hq => hout q (List.mem_cons_of_mem p hq))]
      exact hframe p buf b₁ hb a (hout p (List.mem_cons_self p L))

/-- If moreover each step reads only its own footprint and the footprints
of distinct iterations are disjoint, then the bytes of each footprint in
the final buffer are what that step would have produced directly from the
original buffer. -/
theorem foldlM_char {α : Type} (step : (Nat → Nat) → α → Option (Nat → Nat))
    (F : α → Nat → Prop)
    (hframe : ∀ p b b', step b p = some b' → ∀ a, ¬ F p a → b' a = b a)
    (hlocal : ∀ p b₁ b₂, (∀ a, F p a → b₁ a = b₂ a) →
      ((step b₁ p).isSome → (step b₂ p).isSome) ∧
      (∀ c₁ c₂, step b₁ p = some c₁ → step b₂ p = some c₂ →
        ∀ a, F p a → c₁ a = c₂ a)) :
    ∀ (L : List α), L.Pairwise (fun p q => ∀ a, ¬(F p a ∧ F q a)) →
      ∀ (buf res : Nat → Nat), L.foldlM step buf = some res →
      ∀ p ∈ L, ∃ c, step buf p = some c ∧ ∀ a, F p a → res a = c a := by
  intro L
  induction L with
  | nil =>
    intro _ buf res _ p hp
    exact absurd hp (List.not_mem_nil p)
  | cons q L ih =>
    intro hpw buf res h p hp
    rw [List.pairwise_cons] at hpw
    obtain ⟨hq, hL⟩ := hpw
    rw [List.foldlM_cons] at h
    cases hb : step buf q with
    | none =>
      rw [hb] at h
      exact absurd h (fun hh => Option.noConfusion hh)
    | some b₁ =>
      rw [hb] at h
      have h' : L.foldlM step b₁ = some res := h
      rcases List.mem_cons.mp hp with rfl | hpL
      · refine ⟨b₁, hb, fun a ha => ?_⟩
        exact foldlM_frame step F hframe L b₁ res h' a
          (fun r hr ha2 => (hq r hr a) ⟨ha, ha2⟩)
      · obtain ⟨c', hc', hres⟩ := ih hL b₁ res h' p hpL
        have hagree : ∀ a, F p a → b₁ a = buf a := by
          intro a ha
          exact hframe q buf b₁ hb a (fun haq => (hq p hpL a) ⟨haq, ha⟩)
        obtain ⟨hsome, hval⟩ := hlocal p b₁ buf hagree
        have hs : (step buf p).isSome := hsome (by rw [hc']; rfl)
        cases hc : step buf p with
        | none =>
          rw [hc] at hs
          exact absurd hs (by simp)
        | some c =>
          refine ⟨c, rfl, fun a ha => ?_⟩
          rw [hres a ha]
          exact hval c' c hc' hc a ha

/-- A fold of total steps is total. -/
theorem foldlM_total {α : Type} (step : (Nat → Nat) → α → Option (Nat → Nat))
    (htotal : ∀ b p, (step b p).isSome) :
    ∀ (L : List α) (buf : Nat → Nat), (L.foldlM step buf).isSome := by
  intro L
  induction L with
  | nil =>
    intro buf
    rw [List.foldlM_nil]
    rfl
  | cons p L ih =>
    intro buf
    rw [List.foldlM_cons]
    cases hb : step buf p with
    | none =>
      have := htotal buf p
      rw [hb] at this
      exact absurd this (by simp)
    | some b₁ =>
      exact ih b₁

/-- Nodup plus symmetric-relation-on-distinct-members gives pairwise. -/
theorem pairwise_of_nodup {α : Type} {R : α → α → Prop} :
    ∀ {l : List α}, l.Nodup → (∀ p ∈ l, ∀ q ∈ l, p ≠ q → R p q) →
      l.Pairwise R := by
  intro l
  induction l with
  | nil =>
    intro _ _
    exact List.Pairwise.nil
  | cons a l ih =>
    intro hnd h
    rw [List.nodup_cons] at hnd
    refine List.Pairwise.cons (fun b hb => ?_)
      (ih hnd.2 (fun p hp q hq hne =>
        h p (List.mem_cons_of_mem a hp) q (List.mem_cons_of_mem a hq) hne))
    exact h a (List.mem_cons_self a l) b (List.mem_cons_of_mem a hb)
      (fun he => hnd.1 (he ▸ hb))

/-- Membership in the row-major iteration order. -/
theorem region_points_mem (rw rh x y : Nat) :
    (x, y) ∈ region_points rw rh ↔ x < rw ∧ y < rh := by
  simp only [region_points, List.mem_flatMap, List.mem_map, List.mem_range]
  constructor
  · rintro ⟨y', hy', x', hx', he⟩
    cases he
    exact ⟨hx', hy'⟩
  · rintro ⟨hx, hy⟩
    exact ⟨y, hy, x, hx, rfl⟩

/-- The iteration visits each pixel exactly once. -/
theorem region_points_nodup (rw rh : Nat) : (region_points rw rh).Nodup := by
  unfold region_points
  rw [List.nodup_flatMap]
  constructor
  · intro y _
    exact List.Nodup.map (fun a b h => (Prod.ext_iff.mp h).1) (List.nodup_range rw)
  · refine (List.pairwise_lt_range rh).imp ?_
    intro y y' hlt p hp hp'
    simp only [Function.onFun, List.mem_map, List.mem_range] at hp hp'
    obtain ⟨x, -, rfl⟩ := hp
    obtain ⟨x', -, he⟩ := hp'
    injection he with h1 h2
    exact (Nat.ne_of_lt hlt) h2.symm

end Yav

namespace Yav

-- region write/read/blend helper lemmas

/-- A write leaves every byte outside `[base, base + n)` unchanged. -/
theorem write_bytes_out (buf : Nat → Nat) (base n v a : Nat)
    (h : ¬(base ≤ a ∧ a < base + n)) : write_bytes buf base n v a = buf a := by
  unfold write_bytes
  rw [if_neg h]

/-- A write stores the little-endian bytes of the value. -/
theorem write_bytes_in (buf : Nat → Nat) (base n v a : Nat)
    (h : base ≤ a ∧ a < base + n) :
    write_bytes buf base n v a = byte_at v (a - base) := by
  unfold write_bytes byte_at
  rw [if_pos h]

/-- `read_bytes` depends only on the bytes of `[base, base + n)`. -/
theorem read_bytes_congr (b₁ b₂ : Nat → Nat) (base n : Nat)
    (h : ∀ i, i < n → b₁ (base + i) = b₂ (base + i)) :
    read_bytes b₁ base n = read_bytes b₂ base n := by
  unfold read_bytes
  have main : ∀ l : List Nat, (∀ i ∈ l, i < n) →
      l.foldr (fun i acc => b₁ (base + i) % 256 + 256 * acc) 0
        = l.foldr (fun i acc => b₂ (base + i) % 256 + 256 * acc) 0 := by
    intro l
    induction l with
    | nil =>
      intro _
      rfl
    | cons i l ih =>
      intro hl
      simp only [List.foldr_cons]
      rw [h i (hl i (List.mem_cons_self i l)),
        ih (fun j hj => hl j (List.mem_cons_of_mem i hj))]
  exact main (List.range n) (fun i hi => List.mem_range.mp hi)

/-- `blend` depends only on the destination bytes of its own pixel. -/
theorem blend_congr (s : color) (b₁ b₂ : Nat → Nat) (base n : Nat)
    (fmt : format) (h : ∀ i, i < n → b₁ (base + i) = b₂ (base + i)) :
    blend s b₁ base n fmt = blend s b₂ base n fmt := by
  unfold blend
  rw [read_bytes_congr b₁ b₂ base n h]

-- region blit_pixel shape

/-- Case-split form of `blit_pixel`. -/
theorem blit_pixel_eq (fmt : format) (alphaE bytes : Nat) (blending : Bool)
    (srcdata : Nat → Nat) (so io : position) (sw iw : Int) (buf : Nat → Nat)
    (x y : Nat) :
    blit_pixel fmt alphaE bytes blending srcdata so io sw iw buf x y =
      (if (color.from_rgba srcdata ((get_offset io x y iw 4).toNat)).a = 0 then
        some buf
      else if blending = true then
        (blend (color.from_rgba srcdata ((get_offset io x y iw 4).toNat)) buf
            ((get_offset so x y sw bytes).toNat) bytes fmt).bind
          (fun s' => some (write_bytes buf ((get_offset so x y sw bytes).toNat) bytes
            (fmt.encode_rgb s'.r s'.g s'.b ||| alphaE)))
      else
        some (write_bytes buf ((get_offset so x y sw bytes).toNat) bytes
          (fmt.encode_rgb
            (color.from_rgba srcdata ((get_offset io x y iw 4).toNat)).r
            (color.from_rgba srcdata ((get_offset io x y iw 4).toNat)).g
            (color.from_rgba srcdata ((get_offset io x y iw 4).toNat)).b
            ||| alphaE))) := by
  cases blending <;> rfl

/-- `blit_pixel` writes only inside its own footprint (the byte range of
its destination pixel), and only when the source alpha is nonzero. -/
theorem blit_pixel_frame (fmt : format) (alphaE bytes : Nat) (blending : Bool)
    (srcdata : Nat → Nat) (so io : position) (sw iw : Int) (b b' : Nat → Nat)
    (x y : Nat)
    (h : blit_pixel fmt alphaE bytes blending srcdata so io sw iw b x y = some b')
    (a : Nat)
    (hout : ¬((color.from_rgba srcdata ((get_offset io x y iw 4).toNat)).a ≠ 0
      ∧ (get_offset so x y sw bytes).toNat ≤ a
      ∧ a < (get_offset so x y sw bytes).toNat + bytes)) :
    b' a = b a := by
  rw [blit_pixel_eq] at h
  by_cases hz : (color.from_rgba srcdata ((get_offset io x y iw 4).toNat)).a = 0
  · rw [if_pos hz] at h
    cases h
    rfl
  · rw [if_neg hz] at h
    have hI : ¬((get_offset so x y sw bytes).toNat ≤ a
        ∧ a < (get_offset so x y sw bytes).toNat + bytes) :=
      fun hi => hout ⟨hz, hi.1, hi.2⟩
    cases blending
    · simp only [Bool.false_eq_true, if_false] at h
      cases h
      exact write_bytes_out _ _ _ _ _ hI
    · simp only [if_true] at h
      cases hbl : blend (color.from_rgba srcdata ((get_offset io x y iw 4).toNat)) b
          ((get_offset so x y sw bytes).toNat) bytes fmt with
      | none =>
        rw [hbl] at h
        exact absurd h (fun hh => Option.noConfusion hh)
      | some s' =>
        rw [hbl] at h
        cases h
        exact write_bytes_out _ _ _ _ _ hI

end Yav

namespace Yav

-- region geometry facts about the blit region

/-- The blit region sits inside the surface: its offset from the surface
origin is nonnegative and offset + extent stays within the surface. -/
theorem blit_geom (scr : screen_m) (img : image_m) :
    0 ≤ (scr.scrc.offset (blit_region scr img)).x
    ∧ 0 ≤ (scr.scrc.offset (blit_region scr img)).y
    ∧ (scr.scrc.offset (blit_region scr img)).x + (blit_region scr img).width
        ≤ (scr.w : Int)
    ∧ (scr.scrc.offset (blit_region scr img)).y + (blit_region scr img).height
        ≤ (scr.h : Int) := by
  have e1 : (scr.scrc.offset (blit_region scr img)).x
      = (blit_region scr img).min.x - 0 := rfl
  have e2 : (scr.scrc.offset (blit_region scr img)).y
      = (blit_region scr img).min.y - 0 := rfl
  have hw : (blit_region scr img).width
      = (blit_region scr img).max.x - (blit_region scr img).min.x := rfl
  have hh : (blit_region scr img).height
      = (blit_region scr img).max.y - (blit_region scr img).min.y := rfl
  have h1 : (blit_region scr img).min.x
      = max (max (max 0 0) (blit_imgc scr img).min.x) (blit_view scr).min.x := rfl
  have h2 : (blit_region scr img).max.x
      = min (min (min (0 + (scr.w : Int)) (0 + (scr.w : Int)))
          (blit_imgc scr img).max.x) (blit_view scr).max.x := rfl
  have h3 : (blit_region scr img).min.y
      = max (max (max 0 0) (blit_imgc scr img).min.y) (blit_view scr).min.y := rfl
  have h4 : (blit_region scr img).max.y
      = min (min (min (0 + (scr.h : Int)) (0 + (scr.h : Int)))
          (blit_imgc scr img).max.y) (blit_view scr).max.y := rfl
  rw [e1, e2, hw, hh, h1, h2, h3, h4]
  omega

/-- Every point of the blit region lies in the surface, the image and the
viewport rectangles. -/
theorem blit_region_subset (scr : screen_m) (img : image_m) (p : position)
    (hp : (blit_region scr img).inside p) :
    scr.scrc.inside p ∧ (blit_imgc scr img).inside p
      ∧ (blit_view scr).inside p := by
  have h1 : (blit_region scr img).min.x
      = max (max (max 0 0) (blit_imgc scr img).min.x) (blit_view scr).min.x := rfl
  have h2 : (blit_region scr img).max.x
      = min (min (min (0 + (scr.w : Int)) (0 + (scr.w : Int)))
          (blit_imgc scr img).max.x) (blit_view scr).max.x := rfl
  have h3 : (blit_region scr img).min.y
      = max (max (max 0 0) (blit_imgc scr img).min.y) (blit_view scr).min.y := rfl
  have h4 : (blit_region scr img).max.y
      = min (min (min (0 + (scr.h : Int)) (0 + (scr.h : Int)))
          (blit_imgc scr img).max.y) (blit_view scr).max.y := rfl
  have hs1 : scr.scrc.min.x = 0 := rfl
  have hs2 : scr.scrc.max.x = 0 + (scr.w : Int) := rfl
  have hs3 : scr.scrc.min.y = 0 := rfl
  have hs4 : scr.scrc.max.y = 0 + (scr.h : Int) := rfl
  unfold constraint.inside at hp ⊢
  rw [h1, h2, h3, h4] at hp
  rw [hs1, hs2, hs3, hs4]
  omega

/-- The region of `clear` sits inside the surface likewise. -/
theorem clear_geom (scr : screen_m) :
    0 ≤ (scr.scrc.offset (clear_region scr)).x
    ∧ 0 ≤ (scr.scrc.offset (clear_region scr)).y
    ∧ (scr.scrc.offset (clear_region scr)).x + (clear_region scr).width
        ≤ (scr.w : Int)
    ∧ (scr.scrc.offset (clear_region scr)).y + (clear_region scr).height
        ≤ (scr.h : Int) := by
  have e1 : (scr.scrc.offset (clear_region scr)).x
      = (clear_region scr).min.x - 0 := rfl
  have e2 : (scr.scrc.offset (clear_region scr)).y
      = (clear_region scr).min.y - 0 := rfl
  have hw : (clear_region scr).width
      = (clear_region scr).max.x - (clear_region scr).min.x := rfl
  have hh : (clear_region scr).height
      = (clear_region scr).max.y - (clear_region scr).min.y := rfl
  have h1 : (clear_region scr).min.x
      = max (max 0 0) (blit_view scr).min.x := rfl
  have h2 : (clear_region scr).max.x
      = min (min (0 + (scr.w : Int)) (0 + (scr.w : Int)))
          (blit_view scr).max.x := rfl
  have h3 : (clear_region scr).min.y
      = max (max 0 0) (blit_view scr).min.y := rfl
  have h4 : (clear_region scr).max.y
      = min (min (0 + (scr.h : Int)) (0 + (scr.h : Int)))
          (blit_view scr).max.y := rfl
  rw [e1, e2, hw, hh, h1, h2, h3, h4]
  omega

/-- An empty row range visits no pixels. -/
theorem region_points_zero_h (rw : Nat) : region_points rw 0 = [] := by
  simp [region_points, List.range_zero]

/-- An empty column range visits no pixels. -/
theorem region_points_zero_w (rh : Nat) : region_points 0 rh = [] := by
  simp [region_points, List.range_zero]

end Yav

namespace Yav

/-- C3: `screen::blit_frame` modifies a destination surface byte only if
that byte is covered (`blit_touched`) by a region pixel whose source
alpha is nonzero, where the region is the intersection
surface ∩ viewport ∩ image (every region point lies in all three
rectangles); every untouched destination byte is left bit-for-bit
unchanged, a degenerate (e.g. fully off-canvas) region performs zero
writes, and the surface geometry, format and viewport are never
modified. -/
theorem blit_frame_confinement (scr : screen_m) (img : image_m) (frame : Nat)
    (res : screen_m) (h : scr.blit_frame img frame = some res) :
    res.w = scr.w ∧ res.h = scr.h ∧ res.fmt = scr.fmt ∧ res.view = scr.view
    ∧ (∀ a : Nat, blit_touched scr img frame a = false → res.buf a = scr.buf a)
    ∧ (∀ p : position, (blit_region scr img).inside p →
        scr.scrc.inside p ∧ (blit_imgc scr img).inside p
          ∧ (blit_view scr).inside p)
    ∧ ((blit_region scr img).width ≤ 0 ∨ (blit_region scr img).height ≤ 0 →
        ∀ a, res.buf a = scr.buf a) := by
  simp only [screen_m.blit_frame] at h
  rw [Option.map_eq_some'] at h
  obtain ⟨b, hit, hres⟩ := h
  subst hres
  have hfold : (region_points (blit_region scr img).width.toNat
      (blit_region scr img).height.toNat).foldlM
      (fun bb (p : Nat × Nat) =>
        blit_pixel scr.fmt (scr.fmt.encode_alpha 255) (min scr.fmt.bytes 8)
          img.blend (img.data frame) (scr.scrc.offset (blit_region scr img))
          ((blit_imgc scr img).offset (blit_region scr img)) (scr.w : Int)
          img.w bb p.1 p.2) scr.buf = some b := hit
  refine ⟨rfl, rfl, rfl, rfl, ?_, fun p hp => blit_region_subset scr img p hp, ?_⟩
  · intro a htouch
    show b a = scr.buf a
    refine foldlM_frame _
      (fun (p : Nat × Nat) (a : Nat) =>
        (color.from_rgba (img.data frame)
          ((get_offset ((blit_imgc scr img).offset (blit_region scr img)) p.1 p.2
            img.w 4).toNat)).a ≠ 0
        ∧ (get_offset (scr.scrc.offset (blit_region scr img)) p.1 p.2
            (scr.w : Int) (min scr.fmt.bytes 8)).toNat ≤ a
        ∧ a < (get_offset (scr.scrc.offset (blit_region scr img)) p.1 p.2
            (scr.w : Int) (min scr.fmt.bytes 8)).toNat + min scr.fmt.bytes 8)
      ?_ _ scr.buf b hfold a ?_
    · intro p bb bb' hstep aa hnF
      exact blit_pixel_frame _ _ _ _ _ _ _ _ _ _ _ _ _ hstep aa hnF
    · rintro ⟨x, y⟩ hp
      rw [region_points_mem] at hp
      simp only [blit_touched, List.any_eq_false, List.mem_range] at htouch
      intro hF
      have h1 := htouch y hp.2
      rw [Bool.not_eq_true, List.any_eq_false] at h1
      have h2 := h1 x (List.mem_range.mpr hp.1)
      apply h2
      simp only [Bool.and_eq_true, decide_eq_true_eq]
      exact ⟨⟨hF.1, hF.2.1⟩, hF.2.2⟩
  · intro hempty a
    show b a = scr.buf a
    have hnil : region_points (blit_region scr img).width.toNat
        (blit_region scr img).height.toNat = [] := by
      rcases hempty with hh | hh
      · rw [Int.toNat_of_nonpos hh]
        exact region_points_zero_w _
      · rw [Int.toNat_of_nonpos hh]
        exact region_points_zero_h _
    rw [hnil, List.foldlM_nil] at hfold
    have hb : scr.buf = b := Option.some.inj hfold
    rw [← hb]

/-- C3 witness: a concrete blit (an opaque 1×1 image onto a 2×2 16-bit
surface) leaves the surface byte at address 2 — outside the single
touched pixel's byte range — unchanged. -/
theorem blit_frame_confinement_witness :
    c3scr.blit_frame c3img 0 = some c3res ∧ c3res.buf 2 = c3scr.buf 2 :=
  ⟨by with_unfolding_all rfl,
   (blit_frame_confinement c3scr c3img 0 c3res (by with_unfolding_all rfl)).2.2.2.2.1
     2 (by with_unfolding_all rfl)⟩

end Yav

namespace Yav

-- region address arithmetic

/-- Row-major pixel indices are injective while the column stays inside
the row stride. -/
theorem row_major_ne (u v u' v' W : Nat) (hu : u < W) (hu' : u' < W)
    (hne : u ≠ u' ∨ v ≠ v') : u + v * W ≠ u' + v' * W := by
  intro he
  have hW : 0 < W := Nat.lt_of_le_of_lt (Nat.zero_le u) hu
  have h1 : (u + v * W) % W = u := by
    rw [Nat.add_mul_mod_self_right, Nat.mod_eq_of_lt hu]
  have h2 : (u' + v' * W) % W = u' := by
    rw [Nat.add_mul_mod_self_right, Nat.mod_eq_of_lt hu']
  have h3 : (u + v * W) / W = v := by
    rw [Nat.add_mul_div_right _ _ hW, Nat.div_eq_of_lt hu, Nat.zero_add]
  have h4 : (u' + v' * W) / W = v' := by
    rw [Nat.add_mul_div_right _ _ hW, Nat.div_eq_of_lt hu', Nat.zero_add]
  rw [he] at h1 h3
  rcases hne with h | h
  · exact h (h1.symm.trans h2)
  · exact h (h3.symm.trans h4)

/-- Byte ranges of distinct pixel indices are disjoint. -/
theorem intervals_disjoint (p q n a : Nat) (hne : p ≠ q) :
    ¬(p * n ≤ a ∧ a < p * n + n ∧ q * n ≤ a ∧ a < q * n + n) := by
  rintro ⟨h1, h2, h3, h4⟩
  rcases Nat.lt_or_ge p q with h | h
  · have hle : p * n + n ≤ q * n := by
      have hs : p + 1 ≤ q := h
      calc p * n + n = (p + 1) * n := by ring
        _ ≤ q * n := Nat.mul_le_mul_right n hs
    omega
  · have hq : q < p := Nat.lt_of_le_of_ne h (Ne.symm hne)
    have hle : q * n + n ≤ p * n := by
      have hs : q + 1 ≤ p := hq
      calc q * n + n = (q + 1) * n := by ring
        _ ≤ p * n := Nat.mul_le_mul_right n hs
    omega

/-- The surface byte offset as natural-number arithmetic, once the region
offset is known to be nonnegative. -/
theorem get_offset_toNat (off : position) (x y : Nat) (W n : Nat)
    (hx : 0 ≤ off.x) (hy : 0 ≤ off.y) :
    (get_offset off x y (W : Nat) n).toNat
      = ((off.x.toNat + x) + (off.y.toNat + y) * W) * n := by
  unfold get_offset
  rw [← Int.toNat_of_nonneg hx, ← Int.toNat_of_nonneg hy]
  rw [show ((((off.x.toNat : Int) : Int) + (x : Int))
      + (((off.y.toNat : Int) : Int) + (y : Int)) * ((W : Nat) : Int)) * (n : Int)
      = ((((off.x.toNat + x) + (off.y.toNat + y) * W) * n : Nat) : Int) from by
    push_cast
    ring]
  exact Int.toNat_natCast _

/-- Footprints of two distinct region pixels never share a byte. -/
theorem pixel_ranges_disjoint (sox soy W n rw : Nat)
    (hbound : sox + rw ≤ W) (x y x' y' : Nat)
    (hx : x < rw) (hx' : x' < rw) (hne : ¬(x = x' ∧ y = y')) (a : Nat) :
    ¬(((sox + x) + (soy + y) * W) * n ≤ a
      ∧ a < ((sox + x) + (soy + y) * W) * n + n
      ∧ ((sox + x') + (soy + y') * W) * n ≤ a
      ∧ a < ((sox + x') + (soy + y') * W) * n + n) := by
  apply intervals_disjoint
  apply row_major_ne (sox + x) (soy + y) (sox + x') (soy + y') W
    (by omega) (by omega)
  by_cases hxx : x = x'
  · right
    intro hyy
    exact hne ⟨hxx, by omega⟩
  · left
    omega

-- region idempotence of blit_frame without blending

/-- `blit_pixel` without blending never fails. -/
theorem blit_pixel_total (fmt : format) (alphaE bytes : Nat)
    (srcdata : Nat → Nat) (so io : position) (sw iw : Int) (b : Nat → Nat)
    (x y : Nat) :
    (blit_pixel fmt alphaE bytes false srcdata so io sw iw b x y).isSome := by
  rw [blit_pixel_eq]
  by_cases hz : (color.from_rgba srcdata ((get_offset io x y iw 4).toNat)).a = 0
  · rw [if_pos hz]
    rfl
  · rw [if_neg hz]
    simp only [Bool.false_eq_true, if_false]
    rfl

/-- `blit_pixel` without blending on a transparent source pixel skips. -/
theorem blit_pixel_skip (fmt : format) (alphaE bytes : Nat) (blending : Bool)
    (srcdata : Nat → Nat) (so io : position) (sw iw : Int) (b : Nat → Nat)
    (x y : Nat)
    (hz : (color.from_rgba srcdata ((get_offset io x y iw 4).toNat)).a = 0) :
    blit_pixel fmt alphaE bytes blending srcdata so io sw iw b x y = some b := by
  rw [blit_pixel_eq, if_pos hz]

/-- `blit_pixel` without blending on an opaque-enough source pixel writes
a value that does not depend on the destination buffer. -/
theorem blit_pixel_write (fmt : format) (alphaE bytes : Nat)
    (srcdata : Nat → Nat) (so io : position) (sw iw : Int) (b : Nat → Nat)
    (x y : Nat)
    (hz : ¬(color.from_rgba srcdata ((get_offset io x y iw 4).toNat)).a = 0) :
    blit_pixel fmt alphaE bytes false srcdata so io sw iw b x y
      = some (write_bytes b ((get_offset so x y sw bytes).toNat) bytes
          (fmt.encode_rgb
            (color.from_rgba srcdata ((get_offset io x y iw 4).toNat)).r
            (color.from_rgba srcdata ((get_offset io x y iw 4).toNat)).g
            (color.from_rgba srcdata ((get_offset io x y iw 4).toNat)).b
            ||| alphaE)) := by
  rw [blit_pixel_eq, if_neg hz]
  simp only [Bool.false_eq_true, if_false]

end Yav

namespace Yav

/-- Distinct iterations of one blit have disjoint live footprints. -/
theorem blit_cover_pairwise (bytes : Nat) (srcdata : Nat → Nat)
    (so io : position) (iw : Int) (W rw rh : Nat)
    (h0x : 0 ≤ so.x) (h0y : 0 ≤ so.y)
    (hbound : rw = 0 ∨ so.x.toNat + rw ≤ W) :
    (region_points rw rh).Pairwise
      (fun p q => ∀ a, ¬(blit_cover bytes srcdata so io (W : Nat) iw p a
        ∧ blit_cover bytes srcdata so io (W : Nat) iw q a)) := by
  rcases hbound with rfl | hbound
  · rw [region_points_zero_w]
    exact List.Pairwise.nil
  apply pairwise_of_nodup (region_points_nodup rw rh)
  rintro ⟨x, y⟩ hp ⟨x', y'⟩ hq hne a ⟨hFp, hFq⟩
  rw [region_points_mem] at hp hq
  unfold blit_cover at hFp hFq
  rw [get_offset_toNat so x y W bytes h0x h0y] at hFp
  rw [get_offset_toNat so x' y' W bytes h0x h0y] at hFq
  exact pixel_ranges_disjoint so.x.toNat so.y.toNat W bytes rw hbound x y x' y'
    hp.1 hq.1 (fun hee => hne (by rw [hee.1, hee.2])) a
    ⟨hFp.2.1, hFp.2.2, hFq.2.1, hFq.2.2⟩

/-- Without blending, a blit iteration reads nothing from the buffer: on
buffers that agree on its footprint it succeeds together and writes the
same bytes there. -/
theorem blit_pixel_nb_local (fmt : format) (alphaE bytes : Nat)
    (srcdata : Nat → Nat) (so io : position) (sw iw : Int) (p : Nat × Nat)
    (b₁ b₂ : Nat → Nat)
    (_hagree : ∀ a, blit_cover bytes srcdata so io sw iw p a → b₁ a = b₂ a) :
    ((blit_pixel fmt alphaE bytes false srcdata so io sw iw b₁ p.1 p.2).isSome →
      (blit_pixel fmt alphaE bytes false srcdata so io sw iw b₂ p.1 p.2).isSome)
    ∧ (∀ c₁ c₂,
        blit_pixel fmt alphaE bytes false srcdata so io sw iw b₁ p.1 p.2 = some c₁ →
        blit_pixel fmt alphaE bytes false srcdata so io sw iw b₂ p.1 p.2 = some c₂ →
        ∀ a, blit_cover bytes srcdata so io sw iw p a → c₁ a = c₂ a) := by
  constructor
  · intro _
    exact blit_pixel_total fmt alphaE bytes srcdata so io sw iw b₂ p.1 p.2
  · intro c₁ c₂ h₁ h₂ a ha
    by_cases hz : (color.from_rgba srcdata
        ((get_offset io p.1 p.2 iw 4).toNat)).a = 0
    · exact absurd hz ha.1
    · rw [blit_pixel_write fmt alphaE bytes srcdata so io sw iw b₁ p.1 p.2 hz] at h₁
      rw [blit_pixel_write fmt alphaE bytes srcdata so io sw iw b₂ p.1 p.2 hz] at h₂
      cases h₁
      cases h₂
      rw [write_bytes_in _ _ _ _ _ ⟨ha.2.1, ha.2.2⟩,
        write_bytes_in _ _ _ _ _ ⟨ha.2.1, ha.2.2⟩]

/-- Running the no-blend pixel loop a second time reproduces the buffer
of the first run exactly. -/
theorem blit_fold_idem (fmt : format) (alphaE bytes : Nat) (srcdata : Nat → Nat)
    (so io : position) (iw : Int) (W rw rh : Nat)
    (h0x : 0 ≤ so.x) (h0y : 0 ≤ so.y)
    (hbound : rw = 0 ∨ so.x.toNat + rw ≤ W)
    (buf : Nat → Nat) :
    ∃ b₁, (region_points rw rh).foldlM
        (fun bb (p : Nat × Nat) =>
          blit_pixel fmt alphaE bytes false srcdata so io (W : Nat) iw bb p.1 p.2)
        buf = some b₁
      ∧ (region_points rw rh).foldlM
        (fun bb (p : Nat × Nat) =>
          blit_pixel fmt alphaE bytes false srcdata so io (W : Nat) iw bb p.1 p.2)
        b₁ = some b₁ := by
  classical
  have htotal : ∀ (bb : Nat → Nat) (p : Nat × Nat),
      (blit_pixel fmt alphaE bytes false srcdata so io ((W : Nat) : Int) iw
        bb p.1 p.2).isSome :=
    fun bb p => blit_pixel_total fmt alphaE bytes srcdata so io _ iw bb p.1 p.2
  obtain ⟨b₁, hfold1⟩ := Option.isSome_iff_exists.mp
    (foldlM_total _ (fun bb p => htotal bb p) (region_points rw rh) buf)
  obtain ⟨b₂, hfold2⟩ := Option.isSome_iff_exists.mp
    (foldlM_total _ (fun bb p => htotal bb p) (region_points rw rh) b₁)
  have hframe : ∀ (p : Nat × Nat) (b b' : Nat → Nat),
      blit_pixel fmt alphaE bytes false srcdata so io ((W : Nat) : Int) iw
          b p.1 p.2 = some b' →
      ∀ a, ¬ blit_cover bytes srcdata so io ((W : Nat) : Int) iw p a →
        b' a = b a := by
    intro p b b' hs aa hn
    exact blit_pixel_frame _ _ _ _ _ _ _ _ _ _ _ _ _ hs aa hn
  have hlocal := fun (p : Nat × Nat) (c₁ c₂ : Nat → Nat)
      (hag : ∀ a, blit_cover bytes srcdata so io ((W : Nat) : Int) iw p a →
        c₁ a = c₂ a) =>
    blit_pixel_nb_local fmt alphaE bytes srcdata so io ((W : Nat) : Int) iw
      p c₁ c₂ hag
  have hpw := blit_cover_pairwise bytes srcdata so io iw W rw rh h0x h0y hbound
  refine ⟨b₁, hfold1, ?_⟩
  have hfunext : b₂ = b₁ := by
    funext a
    by_cases hcov : ∃ p ∈ region_points rw rh,
        blit_cover bytes srcdata so io ((W : Nat) : Int) iw p a
    · obtain ⟨p, hp, hF⟩ := hcov
      obtain ⟨c, hc, hres⟩ := foldlM_char _
        (blit_cover bytes srcdata so io ((W : Nat) : Int) iw) hframe hlocal _
        hpw b₁ b₂ hfold2 p hp
      obtain ⟨c0, hc0, hres0⟩ := foldlM_char _
        (blit_cover bytes srcdata so io ((W : Nat) : Int) iw) hframe hlocal _
        hpw buf b₁ hfold1 p hp
      rw [hres a hF, hres0 a hF]
      have hz : ¬ (color.from_rgba srcdata
          ((get_offset io p.1 p.2 iw 4).toNat)).a = 0 := hF.1
      rw [blit_pixel_write fmt alphaE bytes srcdata so io _ iw b₁ p.1 p.2 hz] at hc
      rw [blit_pixel_write fmt alphaE bytes srcdata so io _ iw buf p.1 p.2 hz] at hc0
      cases hc
      cases hc0
      rw [write_bytes_in _ _ _ _ _ ⟨hF.2.1, hF.2.2⟩,
        write_bytes_in _ _ _ _ _ ⟨hF.2.1, hF.2.2⟩]
    · push_neg at hcov
      exact foldlM_frame _
        (blit_cover bytes srcdata so io ((W : Nat) : Int) iw) hframe _
        b₁ b₂ hfold2 a hcov
  rw [hfunext] at hfold2
  exact hfold2

end Yav

namespace Yav

/-- C10: with blending disabled, `screen::blit_frame` is idempotent —
applying it twice with the same image and frame leaves the surface in
exactly the state one application produces, because each written pixel's
value depends only on the source pixel and the format (never on the
destination's prior contents) and alpha-0 source pixels are skipped on
both applications. -/
theorem blit_frame_idempotent (scr : screen_m) (img : image_m) (frame : Nat)
    (hb : img.blend = false) :
    (scr.blit_frame img frame).bind (fun r => r.blit_frame img frame)
      = scr.blit_frame img frame := by
  obtain ⟨h0x, h0y, hbx, _hby⟩ := blit_geom scr img
  have hbound : (blit_region scr img).width.toNat = 0
      ∨ (scr.scrc.offset (blit_region scr img)).x.toNat
        + (blit_region scr img).width.toNat ≤ scr.w := by
    omega
  obtain ⟨b₁, h1, h2⟩ := blit_fold_idem scr.fmt (scr.fmt.encode_alpha 255)
    (min scr.fmt.bytes 8) (img.data frame)
    (scr.scrc.offset (blit_region scr img))
    ((blit_imgc scr img).offset (blit_region scr img)) img.w scr.w
    (blit_region scr img).width.toNat (blit_region scr img).height.toNat
    h0x h0y hbound scr.buf
  have e1 : scr.blit_frame img frame = some { scr with buf := b₁ } := by
    simp only [screen_m.blit_frame, hb]
    exact Option.map_eq_some'.mpr ⟨b₁, h1, rfl⟩
  have e2 : screen_m.blit_frame { scr with buf := b₁ } img frame
      = some { scr with buf := b₁ } := by
    simp only [screen_m.blit_frame, hb]
    exact Option.map_eq_some'.mpr ⟨b₁, h2, rfl⟩
  rw [e1]
  exact e2

/-- C10 witness: the concrete no-blend blit of `c3img` onto `c3scr`
applied twice equals it applied once. -/
theorem blit_frame_idempotent_witness :
    (c3scr.blit_frame c3img 0).bind (fun r => r.blit_frame c3img 0)
      = c3scr.blit_frame c3img 0 :=
  blit_frame_idempotent c3scr c3img 0 rfl

end Yav

namespace Yav

-- region clear

/-- Case-split form of `clear_pixel`. -/
theorem clear_pixel_eq (fmt : format) (alphaE bytes : Nat) (c : color)
    (so : position) (sw : Int) (buf : Nat → Nat) (x y : Nat) :
    clear_pixel fmt alphaE bytes c so sw buf x y =
      (if c.a ≠ 255 then
        (blend c buf ((get_offset so x y sw bytes).toNat) bytes fmt).bind
          (fun s' => some (write_bytes buf ((get_offset so x y sw bytes).toNat)
            bytes (fmt.encode_rgb s'.r s'.g s'.b ||| alphaE)))
      else
        some (write_bytes buf ((get_offset so x y sw bytes).toNat) bytes
          (fmt.encode_rgb c.r c.g c.b ||| alphaE))) := by
  rcases eq_or_ne c.a 255 with h | h
  · unfold clear_pixel
    rw [if_neg (fun hne => hne h), if_neg (fun hne => hne h)]
    rfl
  · unfold clear_pixel
    rw [if_pos h, if_pos h]
    rfl

/-- `clear_pixel` writes only inside its own footprint. -/
theorem clear_pixel_frame (fmt : format) (alphaE bytes : Nat) (c : color)
    (so : position) (sw : Int) (b b' : Nat → Nat) (x y : Nat)
    (h : clear_pixel fmt alphaE bytes c so sw b x y = some b') (a : Nat)
    (hout : ¬ clear_cover bytes so sw (x, y) a) : b' a = b a := by
  unfold clear_cover at hout
  rw [clear_pixel_eq] at h
  rcases eq_or_ne c.a 255 with hc | hc
  · rw [if_neg (fun hne => hne hc)] at h
    cases h
    exact write_bytes_out _ _ _ _ _ hout
  · rw [if_pos hc] at h
    cases hbl : blend c b ((get_offset so x y sw bytes).toNat) bytes fmt with
    | none =>
      rw [hbl] at h
      exact absurd h (fun hh => Option.noConfusion hh)
    | some s' =>
      rw [hbl] at h
      cases h
      exact write_bytes_out _ _ _ _ _ hout

/-- A clear iteration reads only its own footprint: on buffers agreeing
there it succeeds together and writes the same bytes there. -/
theorem clear_pixel_local (fmt : format) (alphaE bytes : Nat) (c : color)
    (so : position) (sw : Int) (p : Nat × Nat) (b₁ b₂ : Nat → Nat)
    (hagree : ∀ a, clear_cover bytes so sw p a → b₁ a = b₂ a) :
    ((clear_pixel fmt alphaE bytes c so sw b₁ p.1 p.2).isSome →
      (clear_pixel fmt alphaE bytes c so sw b₂ p.1 p.2).isSome)
    ∧ (∀ c₁ c₂,
        clear_pixel fmt alphaE bytes c so sw b₁ p.1 p.2 = some c₁ →
        clear_pixel fmt alphaE bytes c so sw b₂ p.1 p.2 = some c₂ →
        ∀ a, clear_cover bytes so sw p a → c₁ a = c₂ a) := by
  have hread : ∀ i, i < bytes →
      b₁ ((get_offset so p.1 p.2 sw bytes).toNat + i)
        = b₂ ((get_offset so p.1 p.2 sw bytes).toNat + i) := by
    intro i hi
    exact hagree _ ⟨Nat.le_add_right _ _, by omega⟩
  have hbl : blend c b₁ ((get_offset so p.1 p.2 sw bytes).toNat) bytes fmt
      = blend c b₂ ((get_offset so p.1 p.2 sw bytes).toNat) bytes fmt :=
    blend_congr c b₁ b₂ _ bytes fmt hread
  rcases eq_or_ne c.a 255 with hc | hc
  · rw [clear_pixel_eq, clear_pixel_eq, if_neg (fun hne => hne hc),
      if_neg (fun hne => hne hc)]
    refine ⟨fun _ => rfl, ?_⟩
    intro c₁ c₂ h₁ h₂ a ha
    cases h₁
    cases h₂
    rw [write_bytes_in _ _ _ _ _ ⟨ha.1, ha.2⟩,
      write_bytes_in _ _ _ _ _ ⟨ha.1, ha.2⟩]
  · rw [clear_pixel_eq, clear_pixel_eq, if_pos hc, if_pos hc, ← hbl]
    cases hb₁ : blend c b₁ ((get_offset so p.1 p.2 sw bytes).toNat) bytes fmt with
    | none =>
      refine ⟨fun hs => absurd hs (by simp), ?_⟩
      intro c₁ c₂ h₁ _ a _
      exact absurd h₁ (fun hh => Option.noConfusion hh)
    | some s' =>
      refine ⟨fun _ => rfl, ?_⟩
      intro c₁ c₂ h₁ h₂ a ha
      cases h₁
      cases h₂
      rw [write_bytes_in _ _ _ _ _ ⟨ha.1, ha.2⟩,
        write_bytes_in _ _ _ _ _ ⟨ha.1, ha.2⟩]

/-- Distinct iterations of one clear have disjoint footprints. -/
theorem clear_cover_pairwise (bytes : Nat) (so : position) (W rw rh : Nat)
    (h0x : 0 ≤ so.x) (h0y : 0 ≤ so.y)
    (hbound : rw = 0 ∨ so.x.toNat + rw ≤ W) :
    (region_points rw rh).Pairwise
      (fun p q => ∀ a, ¬(clear_cover bytes so (W : Nat) p a
        ∧ clear_cover bytes so (W : Nat) q a)) := by
  rcases hbound with rfl | hbound
  · rw [region_points_zero_w]
    exact List.Pairwise.nil
  apply pairwise_of_nodup (region_points_nodup rw rh)
  rintro ⟨x, y⟩ hp ⟨x', y'⟩ hq hne a ⟨hFp, hFq⟩
  rw [region_points_mem] at hp hq
  unfold clear_cover at hFp hFq
  rw [get_offset_toNat so x y W bytes h0x h0y] at hFp
  rw [get_offset_toNat so x' y' W bytes h0x h0y] at hFq
  exact pixel_ranges_disjoint so.x.toNat so.y.toNat W bytes rw hbound x y x' y'
    hp.1 hq.1 (fun hee => hne (by rw [hee.1, hee.2])) a
    ⟨hFp.1, hFp.2, hFq.1, hFq.2⟩

end Yav

namespace Yav

/-- C4: `screen::clear` with alpha 0 returns leaving every surface byte
unchanged; `color::parse` of a 6-hex-digit string leaves alpha at its
zero-initialized value 0, so `clear(parse("ffffff"))` draws nothing; and
with partial alpha (0 < a < 255) every pixel of surface ∩ viewport is
blended against its own current contents and re-encoded with
forced-opaque alpha (`clear_value` = blend of the fill color against the
pixel's own original bytes, encoded with `encode_alpha 255` forced in). -/
theorem clear_spec :
    (∀ (scr : screen_m) (c : color), c.a = 0 → scr.clear c = some scr)
    ∧ color.parse "ffffff".toList = .ok ⟨255, 255, 255, 0⟩
    ∧ (∀ scr : screen_m, scr.clear ⟨255, 255, 255, 0⟩ = some scr)
    ∧ (∀ (scr : screen_m) (c : color) (res : screen_m),
        scr.clear c = some res → 0 < c.a → c.a < 255 →
        ∀ x y : Nat, x < (clear_region scr).width.toNat →
          y < (clear_region scr).height.toNat →
          (blend c scr.buf
            ((get_offset (scr.scrc.offset (clear_region scr)) x y (scr.w : Int)
              (min scr.fmt.bytes 8)).toNat) (min scr.fmt.bytes 8) scr.fmt).isSome
          ∧ ∀ i, i < min scr.fmt.bytes 8 →
            res.buf ((get_offset (scr.scrc.offset (clear_region scr)) x y
              (scr.w : Int) (min scr.fmt.bytes 8)).toNat + i)
              = byte_at (clear_value scr.fmt (scr.fmt.encode_alpha 255)
                  (min scr.fmt.bytes 8) c scr.buf
                  ((get_offset (scr.scrc.offset (clear_region scr)) x y
                    (scr.w : Int) (min scr.fmt.bytes 8)).toNat)) i) := by
  refine ⟨?_, rfl, ?_, ?_⟩
  · intro scr c h
    simp only [screen_m.clear]
    rw [if_pos h]
  · intro scr
    simp only [screen_m.clear]
    rfl
  · intro scr c res h h0 h255 x y hx hy
    have ha0 : ¬ c.a = 0 := by omega
    have ha255 : c.a ≠ 255 := by omega
    simp only [screen_m.clear] at h
    rw [if_neg ha0, Option.map_eq_some'] at h
    obtain ⟨b, hit, hres⟩ := h
    subst hres
    have hfold : (region_points (clear_region scr).width.toNat
        (clear_region scr).height.toNat).foldlM
        (fun bb (p : Nat × Nat) =>
          clear_pixel scr.fmt (scr.fmt.encode_alpha 255) (min scr.fmt.bytes 8)
            c (scr.scrc.offset (clear_region scr)) (scr.w : Int)
            bb p.1 p.2) scr.buf = some b := hit
    obtain ⟨h0x, h0y, hbx, _⟩ := clear_geom scr
    have hbound : (clear_region scr).width.toNat = 0
        ∨ (scr.scrc.offset (clear_region scr)).x.toNat
          + (clear_region scr).width.toNat ≤ scr.w := by
      omega
    have hframe : ∀ (p : Nat × Nat) (bb bb' : Nat → Nat),
        clear_pixel scr.fmt (scr.fmt.encode_alpha 255) (min scr.fmt.bytes 8) c
            (scr.scrc.offset (clear_region scr)) (scr.w : Int)
            bb p.1 p.2 = some bb' →
        ∀ a, ¬ clear_cover (min scr.fmt.bytes 8)
            (scr.scrc.offset (clear_region scr)) (scr.w : Int) p a →
          bb' a = bb a := by
      rintro ⟨px, py⟩ bb bb' hs aa hn
      exact clear_pixel_frame _ _ _ _ _ _ _ _ _ _ hs aa hn
    have hlocal := fun (p : Nat × Nat) (c₁ c₂ : Nat → Nat)
        (hag : ∀ a, clear_cover (min scr.fmt.bytes 8)
          (scr.scrc.offset (clear_region scr)) (scr.w : Int) p a →
            c₁ a = c₂ a) =>
      clear_pixel_local scr.fmt (scr.fmt.encode_alpha 255) (min scr.fmt.bytes 8)
        c (scr.scrc.offset (clear_region scr)) (scr.w : Int) p c₁ c₂ hag
    have hpw := clear_cover_pairwise (min scr.fmt.bytes 8)
      (scr.scrc.offset (clear_region scr)) scr.w
      (clear_region scr).width.toNat (clear_region scr).height.toNat
      h0x h0y hbound
    obtain ⟨c₀, hc₀, hres0⟩ := foldlM_char _
      (clear_cover (min scr.fmt.bytes 8) (scr.scrc.offset (clear_region scr))
        (scr.w : Int)) hframe hlocal _ hpw scr.buf b hfold (x, y)
      ((region_points_mem _ _ x y).mpr ⟨hx, hy⟩)
    rw [clear_pixel_eq, if_pos ha255] at hc₀
    cases hbl : blend c scr.buf
        ((get_offset (scr.scrc.offset (clear_region scr)) x y
          (scr.w : Int) (min scr.fmt.bytes 8)).toNat)
        (min scr.fmt.bytes 8) scr.fmt with
    | none =>
      rw [hbl] at hc₀
      exact absurd hc₀ (fun hh => Option.noConfusion hh)
    | some s' =>
      rw [hbl] at hc₀
      cases hc₀
      constructor
      · rfl
      · intro i hi
        have hcov : clear_cover (min scr.fmt.bytes 8)
            (scr.scrc.offset (clear_region scr)) (scr.w : Int) (x, y)
            ((get_offset (scr.scrc.offset (clear_region scr)) x y
              (scr.w : Int) (min scr.fmt.bytes 8)).toNat + i) := by
          unfold clear_cover
          dsimp only
          exact ⟨Nat.le_add_right _ _, by omega⟩
        show b ((get_offset (scr.scrc.offset (clear_region scr)) x y
          (scr.w : Int) (min scr.fmt.bytes 8)).toNat + i) = _
        rw [hres0 _ hcov]
        rw [write_bytes_in _ _ _ _ _ ⟨Nat.le_add_right _ _, by omega⟩]
        rw [Nat.add_sub_cancel_left]
        unfold clear_value
        rw [if_pos ha255, hbl]
        rfl

/-- C4 witness: a concrete partial-alpha clear of a 2×1 16-bit surface
self-blends pixel (0,0) and stores the re-encoded value's first byte. -/
theorem clear_spec_witness :
    (blend c4col c4scr.buf
      ((get_offset (c4scr.scrc.offset (clear_region c4scr)) 0 0 (c4scr.w : Int)
        (min c4scr.fmt.bytes 8)).toNat) (min c4scr.fmt.bytes 8)
      c4scr.fmt).isSome
    ∧ c4res.buf ((get_offset (c4scr.scrc.offset (clear_region c4scr)) 0 0
        (c4scr.w : Int) (min c4scr.fmt.bytes 8)).toNat + 0)
      = byte_at (clear_value c4scr.fmt (c4scr.fmt.encode_alpha 255)
          (min c4scr.fmt.bytes 8) c4col c4scr.buf
          ((get_offset (c4scr.scrc.offset (clear_region c4scr)) 0 0
            (c4scr.w : Int) (min c4scr.fmt.bytes 8)).toNat)) 0 := by
  have h := clear_spec.2.2.2 c4scr c4col c4res (by with_unfolding_all rfl)
    (by decide) (by decide) 0 0
    (by rw [show (clear_region c4scr).width.toNat = 2 from by
          with_unfolding_all rfl]
        omega)
    (by rw [show (clear_region c4scr).height.toNat = 1 from by
          with_unfolding_all rfl]
        omega)
  exact ⟨h.1, h.2 0 (by decide)⟩

end Yav

namespace Yav

/-- C7 witness: instantiating the error-classification clause at
`"zz0000"` shows the parse error names the non-hex character `'z'` of
the input. -/
theorem color_parse_spec_witness :
    ¬ is_hex 'z' ∧ 'z' ∈ strip_head "zz0000".toList := by
  rcases color_parse_spec.2.2.2.2.2.2 "zz0000".toList (.bad_digit 'z') rfl with
    ⟨h, -⟩ | ⟨ch, he, hh, hm⟩
  · exact absurd h (by decide)
  · injection he with h1
    subst h1
    exact ⟨hh, hm⟩

end Yav
